import Mathlib

/-!
# OpenPH solver plugin scheduler — a shallow embedding

This file embeds the scheduler core of the OpenPH repository
(`src/solvers/base.py`, `src/solvers/registry.py`, `src/solvers/manager.py`)
as executable Lean definitions and proves properties of the embedded code.

Modelling conventions:
* Python dicts preserve insertion order, so `SolverRegistry._solvers` is a
  `List (SolverInfo α)` keyed by `name` (registration overwrites in place).
* Python sets appear in three places: `SolverInfo.depends_on`, the `visiting`
  set of the depth-first traversal, and `processed`.  They are modelled as
  lists in insertion order; only membership is observed by the code except
  for iteration order (`for dep_name in solver_info.depends_on`,
  `" → ".join(list(visiting) + [solver_name])`), whose order Python leaves
  unspecified — the embedding fixes insertion order as a representative, and
  the theorems below use membership only wherever Python's order matters.
* The opaque model/context object (`Any` in Python) is a type parameter `α`;
  in-place mutation is modelled by a plugin's `solve` returning a value,
  exactly mirroring `model = self.execute_solver(...)` rebinding.
* Python exceptions become an `OpErr` value carrying the structured payload
  of the corresponding message (`ValueError`, `KeyError`, `RuntimeError`,
  `SolverExecutionError`).
* The recursion of `_add_solver_to_order` terminates because every recursive
  call enlarges `visiting` by a registered name; the embedding makes that
  measure explicit as a fuel argument, and `calcOrder` supplies fuel that is
  proved sufficient (`remFuel_lt_addFuel`, `addSolver_spec`), so the `.fuelOut`
  branch of the embedding is unreachable from `calcOrder`.
-/

namespace OpenPH

/-- Enum `SolverPriority` from `src/solvers/base.py`: execution priority tiers. -/
inductive SolverPriority where
  | FOUNDATION
  | DEMAND
  | SYSTEMS
  | AGGREGATION
  | ANALYSIS
deriving DecidableEq, Repr

/-- The numeric `.value` of each `SolverPriority` enum member. -/
def SolverPriority.value : SolverPriority → Nat
  | .FOUNDATION => 1
  | .DEMAND => 2
  | .SYSTEMS => 3
  | .AGGREGATION => 4
  | .ANALYSIS => 5

/-- Python `sorted(SolverPriority, key=lambda p: p.value)` — the members in
ascending `value` order (which is also enum definition order). -/
def SolverPriority.sortedMembers : List SolverPriority :=
  [.FOUNDATION, .DEMAND, .SYSTEMS, .AGGREGATION, .ANALYSIS]

/-- Record `SolverInfo` from `src/solvers/registry.py`, fused with the behaviour of
the solver class it carries: `solve` and `validate_dependencies` are the two
protocol methods the manager invokes on instances of `solver_class`
(`src/solvers/base.py`); the model/context type is the parameter `α`.
`validateDeps` receives the available solver names and returns the list of
error messages (per the protocol docstring, empty means satisfied). -/
structure SolverInfo (α : Type) where
  name : String
  priority : SolverPriority
  dependsOn : List String
  version : String := "0.0.0"
  solve : α → Except String α
  validateDeps : List String → List String

/-- Structured payloads of the exceptions raised by the registry and the
manager.  `circular` and `unresolved` are the two `ValueError`s of
`registry.py`; `execError` is `SolverExecutionError` (name, message);
`multiExecError` is the aggregated `SolverExecutionError` built from the
collected failures, carrying each failed solver's name and message;
`valueError` is the unsatisfied-dependencies `ValueError` of
`manager.execute_solver`; `fuelOut` is the embedding's fuel exhaustion,
proved unreachable below. -/
inductive OpErr where
  | notDiscovered
  | keyError (name : String)
  | unresolved (solver dep : String)
  | circular (visiting : List String) (name : String)
  | valueError (name : String) (missing : List String)
  | execError (name : String) (msg : String)
  | multiExecError (failures : List (String × String))
  | fuelOut
deriving DecidableEq, Repr

variable {α : Type}

/-- Dict lookup `self._solvers[name]` / `name in self._solvers`. -/
def lookup (S : List (SolverInfo α)) (n : String) : Option (SolverInfo α) :=
  S.find? (fun s => s.name == n)

/-- Python `self._solvers.keys()` in registration order. -/
def namesOf (S : List (SolverInfo α)) : List String :=
  S.map (fun s => s.name)

/-- Method `SolverRegistry._validate_all_dependencies`: iterate the registered
solvers and their dependency names; `raise ValueError` at the first
dependency that names no registered solver. -/
def validateAllDependencies (S : List (SolverInfo α)) : Except OpErr Unit :=
  match S.findSome? (fun s =>
      (s.dependsOn.find? (fun d => !(S.any (fun t => t.name == d)))).map
        (fun d => (s.name, d))) with
  | some (a, d) => .error (.unresolved a d)
  | none => .ok ()

/-- The `for dep_name in solver_info.depends_on:` loop of
`_add_solver_to_order`, threading the `(execution_order, processed)` state;
the recursive descent into a dependency is the parameter `f`. -/
def addDepsToOrder
    (f : String → List String → List String → List String →
      Except OpErr (List String × List String)) :
    List String → List String → List String → List String →
    Except OpErr (List String × List String)
  | [], order, processed, _ => .ok (order, processed)
  | d :: rest, order, processed, visiting =>
    match f d order processed visiting with
    | .error e => .error e
    | .ok (order', processed') =>
      addDepsToOrder f rest order' processed' visiting

/-- Method `SolverRegistry._add_solver_to_order`: depth-first topological insertion
of `name` and its dependencies into `execution_order`, with cycle detection
via `visiting`.  Returns the updated `(execution_order, processed)` pair.
The fuel argument makes the recursion structural; `calcOrder` supplies
provably sufficient fuel. -/
def addSolverToOrder (S : List (SolverInfo α)) :
    Nat → String → List String → List String → List String →
    Except OpErr (List String × List String)
  | 0, _, _, _, _ => .error .fuelOut
  | fuel + 1, name, order, processed, visiting =>
    if name ∈ processed then .ok (order, processed)
    else if name ∈ visiting then .error (.circular visiting name)
    else
      match lookup S name with
      | none => .error (.keyError name)
      | some info =>
        match addDepsToOrder
            (fun d o p v => addSolverToOrder S fuel d o p v)
            info.dependsOn order processed (visiting ++ [name]) with
        | .error e => .error e
        | .ok (order', processed') => .ok (order' ++ [name], processed' ++ [name])

/-- Fuel that dominates the traversal depth: one unit per registered solver,
plus one. -/
def addFuel (S : List (SolverInfo α)) : Nat := (namesOf S).length + 1

/-- The `for solver_name in solvers_at_priority:` loop of
`_calculate_execution_order`: each top-level call starts with a fresh empty
`visiting` set. -/
def processGroup (S : List (SolverInfo α)) :
    List String → List String → List String →
    Except OpErr (List String × List String)
  | [], order, processed => .ok (order, processed)
  | n :: rest, order, processed =>
    match addSolverToOrder S (addFuel S) n order processed [] with
    | .error e => .error e
    | .ok (order', processed') => processGroup S rest order' processed'

/-- The `for priority in sorted(SolverPriority, ...):` loop of
`_calculate_execution_order`; `priority_groups[priority]` is the registered
solvers of that priority in registration order. -/
def processGroups (S : List (SolverInfo α)) :
    List SolverPriority → List String → List String →
    Except OpErr (List String × List String)
  | [], order, processed => .ok (order, processed)
  | p :: ps, order, processed =>
    match processGroup S
        (namesOf (S.filter (fun s => s.priority == p))) order processed with
    | .error e => .error e
    | .ok (order', processed') => processGroups S ps order' processed'

/-- The body of `SolverRegistry._calculate_execution_order` after the
`_discovered` guard: validate all dependencies, then build the order by
priority-tiered depth-first traversal. -/
def calcOrder (S : List (SolverInfo α)) : Except OpErr (List String) :=
  match validateAllDependencies S with
  | .error e => .error e
  | .ok _ =>
    match processGroups S SolverPriority.sortedMembers [] [] with
    | .error e => .error e
    | .ok (order, _) => .ok order

/-- State of `SolverRegistry`: `_solvers` (insertion-ordered dict),
`_execution_order` cache, `_discovered` flag. -/
structure SolverRegistry (α : Type) where
  solvers : List (SolverInfo α)
  executionOrder : Option (List String)
  discovered : Bool

/-- Method `SolverRegistry._calculate_execution_order` including its
`_discovered` guard (`RuntimeError`) and the write to the cache. -/
def calculateExecutionOrder (r : SolverRegistry α) :
    Except OpErr (SolverRegistry α) :=
  if !r.discovered then .error .notDiscovered
  else
    match calcOrder r.solvers with
    | .error e => .error e
    | .ok o => .ok { r with executionOrder := some o }

/-- Python dict assignment `self._solvers[info.name] = info`: overwrite in place
if the key exists, else append. -/
def dictInsert (S : List (SolverInfo α)) (info : SolverInfo α) :
    List (SolverInfo α) :=
  if S.any (fun s => s.name == info.name) then
    S.map (fun s => if s.name == info.name then info else s)
  else S ++ [info]

/-- Method `SolverRegistry.discover_solvers`, with the entry-point source modelled
as the list of already-loaded, protocol-valid candidates in scan order:
clear previous discoveries, register each candidate (overwriting by name),
set `_discovered`, then calculate the execution order eagerly. -/
def discoverSolvers (_r : SolverRegistry α) (candidates : List (SolverInfo α)) :
    Except OpErr (SolverRegistry α) :=
  let solvers := candidates.foldl dictInsert []
  calculateExecutionOrder { solvers := solvers, executionOrder := none, discovered := true }

/-- Method `SolverRegistry.get_execution_order`: `_discovered` guard, lazy
recomputation when the cache is `None`, and a defensive copy of the cache.
Returns the order together with the (possibly updated) registry. -/
def getExecutionOrder (r : SolverRegistry α) :
    Except OpErr (List String × SolverRegistry α) :=
  if !r.discovered then .error .notDiscovered
  else
    match r.executionOrder with
    | some o => .ok (o, r)
    | none =>
      match calculateExecutionOrder r with
      | .error e => .error e
      | .ok r' => .ok (r'.executionOrder.getD [], r')

/-- State of `SolverManager`: its registry, the instance cache (modelled by the
set of names holding a cached instance; behaviour lives in `SolverInfo`),
and `_execution_history`. -/
structure SolverManager (α : Type) where
  registry : SolverRegistry α
  instances : List String
  executionHistory : List String

/-- Method `SolverManager.execute_solver`.  `get_solver_instance` resolves the class
through `registry.get_solver_class` (RuntimeError when not discovered,
KeyError when unknown) and caches the instance.  The dependency-validation
branch is Python's `if not solver.validate_dependencies(available_solvers):`
— the protocol (`src/solvers/base.py`) returns a list of error messages, so
the branch raises the `ValueError` exactly when that list is empty.  Returns
the manager state next to the outcome because the instance cache mutation
survives a failure. -/
def executeSolver (m : SolverManager α) (name : String) (model : α)
    (validateDependencies : Bool) : SolverManager α × Except OpErr α :=
  if !m.registry.discovered then (m, .error .notDiscovered)
  else
    match lookup m.registry.solvers name with
    | none => (m, .error (.keyError name))
    | some info =>
      let m := { m with instances :=
        if name ∈ m.instances then m.instances else m.instances ++ [name] }
      let available := namesOf m.registry.solvers
      if validateDependencies && (info.validateDeps available).isEmpty then
        (m, .error (.valueError name
          (info.dependsOn.filter (fun d => !(available.contains d)))))
      else
        match info.solve model with
        | .error msg => (m, .error (.execError name msg))
        | .ok result =>
          ({ m with executionHistory := m.executionHistory ++ [name] }, .ok result)

/-- The execution loop shared by `execute_all` and `execute_subset`:
run each name with `validate_dependencies=False`; a `SolverExecutionError`
either propagates immediately (`stop_on_error`) or is collected; any other
exception propagates; afterwards a nonempty collection is rethrown as the
aggregated `SolverExecutionError`. -/
def runSolverList :
    SolverManager α → List String → α → Bool → List (String × String) →
    SolverManager α × Except OpErr α
  | m, [], model, _, errors =>
    if errors.isEmpty then (m, .ok model) else (m, .error (.multiExecError errors))
  | m, n :: rest, model, stopOnError, errors =>
    match executeSolver m n model false with
    | (m', .ok model') => runSolverList m' rest model' stopOnError errors
    | (m', .error (.execError nm msg)) =>
      if stopOnError then (m', .error (.execError nm msg))
      else runSolverList m' rest model stopOnError (errors ++ [(nm, msg)])
    | (m', .error e) => (m', .error e)

/-- Method `SolverManager.execute_all`: resolve the order from the registry (which
may compute it lazily, updating the cache), then run every name. -/
def executeAll (m : SolverManager α) (model : α) (stopOnError : Bool) :
    SolverManager α × Except OpErr α :=
  match getExecutionOrder m.registry with
  | .error e => (m, .error e)
  | .ok (order, reg') =>
    runSolverList { m with registry := reg' } order model stopOnError []

/-- Method `SolverManager.execute_subset`: validate that every requested name is
registered (KeyError at the first unknown), then run either the full plan
filtered to the requested names (`respect_order=True`) or the caller's list
verbatim. -/
def executeSubset (m : SolverManager α) (solverNames : List String) (model : α)
    (respectOrder : Bool) (stopOnError : Bool) :
    SolverManager α × Except OpErr α :=
  match solverNames.find?
      (fun n => !(m.registry.solvers.any (fun s => s.name == n))) with
  | some bad => (m, .error (.keyError bad))
  | none =>
    if respectOrder then
      match getExecutionOrder m.registry with
      | .error e => (m, .error e)
      | .ok (fullOrder, reg') =>
        runSolverList { m with registry := reg' }
          (fullOrder.filter (fun s => solverNames.contains s))
          model stopOnError []
    else runSolverList m solverNames model stopOnError []

/-- Method `SolverManager.discover_solvers`: delegate to the registry, then clear
the instance cache and the execution history. -/
def SolverManager.discoverSolvers (m : SolverManager α)
    (candidates : List (SolverInfo α)) : Except OpErr (SolverManager α) :=
  match OpenPH.discoverSolvers m.registry candidates with
  | .error e => .error e
  | .ok r' => .ok { registry := r', instances := [], executionHistory := [] }

/-! ## Specification predicates over the embedded registry -/

/-- The dependency relation declared by the descriptor set: `DepR S a b`
holds when some registered solver named `a` lists `b` in `depends_on`. -/
def DepR (S : List (SolverInfo α)) (a b : String) : Prop :=
  (S.any (fun s => s.name == a && s.dependsOn.contains b)) = true

instance (S : List (SolverInfo α)) (a b : String) : Decidable (DepR S a b) :=
  inferInstanceAs (Decidable (_ = true))

/-- Every `depends_on` entry of every registered solver names a registered
solver ("fully resolvable"). -/
def Resolvable (S : List (SolverInfo α)) : Prop :=
  ∀ s ∈ S, ∀ d ∈ s.dependsOn, d ∈ namesOf S

/-- The dependency relation has no cycle. -/
def Acyclic (S : List (SolverInfo α)) : Prop :=
  ∀ a, ¬ Relation.TransGen (DepR S) a a

/-- Every dependency of an element of `l` occurs strictly earlier in `l`. -/
def DepsRespected (S : List (SolverInfo α)) (l : List String) : Prop :=
  ∀ i (hi : i < l.length) b, DepR S (l.get ⟨i, hi⟩) b →
    ∃ j, ∃ hj : j < l.length, j < i ∧ l.get ⟨j, hj⟩ = b

/-- The priority-tier value of the solver registered under `n` (0 if none). -/
def tierOf (S : List (SolverInfo α)) (n : String) : Nat :=
  ((lookup S n).map (fun s => s.priority.value)).getD 0

/-- The tier values along `l` are non-decreasing. -/
def TiersMono (S : List (SolverInfo α)) (l : List String) : Prop :=
  (l.map (tierOf S)).Chain' (· ≤ ·)

/-- Every dependency lies in the same or an earlier priority tier than its
dependent ("tier-consistent"). -/
def TierConsistent (S : List (SolverInfo α)) : Prop :=
  ∀ s ∈ S, ∀ d ∈ s.dependsOn, ∀ t ∈ S, t.name = d →
    t.priority.value ≤ s.priority.value

/-- The number of registered names not yet on the `visiting` path: the
traversal's termination measure. -/
def remFuel (S : List (SolverInfo α)) (visiting : List String) : Nat :=
  ((namesOf S).filter (fun n => !(visiting.contains n))).length

/-! ## Basic lemmas about lookup, names and the dependency relation -/

theorem mem_namesOf {S : List (SolverInfo α)} {n : String} :
    n ∈ namesOf S ↔ ∃ s ∈ S, s.name = n := by
  simp [namesOf, List.mem_map]

theorem lookup_eq_some_of_mem {S : List (SolverInfo α)} {n : String}
    (h : n ∈ namesOf S) : ∃ info, lookup S n = some info := by
  rcases mem_namesOf.mp h with ⟨s, hs, hn⟩
  have : (S.find? (fun s => s.name == n)).isSome := by
    rw [List.find?_isSome]
    exact ⟨s, hs, by simp [hn]⟩
  rcases Option.isSome_iff_exists.mp this with ⟨info, hinfo⟩
  exact ⟨info, hinfo⟩

theorem lookup_spec {S : List (SolverInfo α)} {n : String} {info : SolverInfo α}
    (h : lookup S n = some info) : info ∈ S ∧ info.name = n := by
  refine ⟨List.mem_of_find?_eq_some h, ?_⟩
  have := List.find?_some h
  simpa using this

theorem mem_namesOf_of_lookup {S : List (SolverInfo α)} {n : String}
    {info : SolverInfo α} (h : lookup S n = some info) : n ∈ namesOf S :=
  mem_namesOf.mpr ⟨info, (lookup_spec h).1, (lookup_spec h).2⟩

theorem depR_iff {S : List (SolverInfo α)} {a b : String} :
    DepR S a b ↔ ∃ s ∈ S, s.name = a ∧ b ∈ s.dependsOn := by
  simp [DepR, List.any_eq_true]

theorem depR_of_lookup {S : List (SolverInfo α)} {a b : String}
    {info : SolverInfo α} (h : lookup S a = some info)
    (hb : b ∈ info.dependsOn) : DepR S a b :=
  depR_iff.mpr ⟨info, (lookup_spec h).1, (lookup_spec h).2, hb⟩

/-- With no duplicate names, a solver's declared dependencies are exactly
those of the record `lookup` finds. -/
theorem dependsOn_of_depR {S : List (SolverInfo α)}
    (hND : (namesOf S).Nodup) {a b : String} {info : SolverInfo α}
    (h : lookup S a = some info) (hd : DepR S a b) : b ∈ info.dependsOn := by
  rcases depR_iff.mp hd with ⟨s, hs, hsn, hb⟩
  have hinj := List.inj_on_of_nodup_map (f := fun s : SolverInfo α => s.name) hND
  have : s = info := hinj hs (lookup_spec h).1 (by rw [hsn, (lookup_spec h).2])
  rwa [this] at hb

/-- With no duplicate names, `lookup` at a member's name returns that member. -/
theorem lookup_self {S : List (SolverInfo α)} (hND : (namesOf S).Nodup)
    {s : SolverInfo α} (hs : s ∈ S) : lookup S s.name = some s := by
  rcases lookup_eq_some_of_mem (mem_namesOf.mpr ⟨s, hs, rfl⟩) with ⟨info, hinfo⟩
  have hinj := List.inj_on_of_nodup_map (f := fun s : SolverInfo α => s.name) hND
  have : info = s := hinj (lookup_spec hinfo).1 hs (lookup_spec hinfo).2
  rwa [this] at hinfo

theorem tierOf_eq {S : List (SolverInfo α)} (hND : (namesOf S).Nodup)
    {s : SolverInfo α} (hs : s ∈ S) : tierOf S s.name = s.priority.value := by
  simp [tierOf, lookup_self hND hs]

/-! ## List helper lemmas -/

theorem filter_length_le {p q : String → Bool}
    (himp : ∀ x, q x = true → p x = true) :
    ∀ l : List String, (l.filter q).length ≤ (l.filter p).length := by
  intro l
  induction l with
  | nil => simp
  | cons x xs ih =>
    by_cases hq : q x = true
    · simp [List.filter_cons, hq, himp x hq]; omega
    · have hq' : q x = false := by simpa using hq
      by_cases hp : p x = true
      · simp [List.filter_cons, hq', hp]; omega
      · have hp' : p x = false := by simpa using hp
        simpa [List.filter_cons, hq', hp'] using ih

theorem filter_length_lt {p q : String → Bool}
    (himp : ∀ x, q x = true → p x = true) {a : String}
    (hpa : p a = true) (hqa : q a = false) :
    ∀ {l : List String}, a ∈ l → (l.filter q).length < (l.filter p).length := by
  intro l ha
  induction l with
  | nil => cases ha
  | cons x xs ih =>
    rcases List.mem_cons.mp ha with rfl | hmem
    · have := filter_length_le himp xs
      simp [List.filter_cons, hqa, hpa]; omega
    · by_cases hq : q x = true
      · have := ih hmem
        simp [List.filter_cons, hq, himp x hq]; omega
      · have hq' : q x = false := by simpa using hq
        by_cases hp : p x = true
        · have := ih hmem
          simp [List.filter_cons, hq', hp]; omega
        · have hp' : p x = false := by simpa using hp
          simpa [List.filter_cons, hq', hp'] using ih hmem

theorem remFuel_append_lt {S : List (SolverInfo α)} {visiting : List String}
    {name : String} (hmem : name ∈ namesOf S) (hvis : name ∉ visiting) :
    remFuel S (visiting ++ [name]) < remFuel S visiting := by
  unfold remFuel
  refine filter_length_lt (fun x hx => ?_) ?_ ?_ hmem
  · simp only [List.contains, List.elem_eq_mem, Bool.not_eq_true',
      decide_eq_false_iff_not, List.mem_append] at hx ⊢
    exact fun h => hx (Or.inl h)
  · simp only [List.contains, List.elem_eq_mem, Bool.not_eq_true',
      decide_eq_false_iff_not]
    exact hvis
  · simp [List.contains, List.elem_eq_mem]

theorem remFuel_lt_addFuel (S : List (SolverInfo α)) :
    remFuel S [] < addFuel S := by
  unfold remFuel addFuel
  have := List.length_filter_le (fun n => !(([] : List String).contains n)) (namesOf S)
  omega

theorem nodup_concat {l : List String} {a : String} (h : l.Nodup)
    (ha : a ∉ l) : (l ++ [a]).Nodup := by
  simp [List.nodup_append, h, ha]

theorem depsRespected_nil {S : List (SolverInfo α)} : DepsRespected S [] := by
  intro i hi
  simp at hi

theorem depsRespected_concat {S : List (SolverInfo α)} {l : List String}
    {a : String} (h : DepsRespected S l) (hdeps : ∀ b, DepR S a b → b ∈ l) :
    DepsRespected S (l ++ [a]) := by
  intro i hi b hdep
  have hlen : (l ++ [a]).length = l.length + 1 := by simp
  rcases Nat.lt_or_ge i l.length with hil | hil
  · have hget : (l ++ [a]).get ⟨i, hi⟩ = l.get ⟨i, hil⟩ := by
      simp only [List.get_eq_getElem]
      exact List.getElem_append_left hil
    rw [hget] at hdep
    rcases h i hil b hdep with ⟨j, hj, hji, hgj⟩
    refine ⟨j, by omega, hji, ?_⟩
    rw [← hgj]
    simp only [List.get_eq_getElem]
    exact List.getElem_append_left hj
  · have hieq : i = l.length := by omega
    have hget : (l ++ [a]).get ⟨i, hi⟩ = a := by
      simp only [List.get_eq_getElem]
      exact List.getElem_concat_length l a i hieq hi
    rw [hget] at hdep
    have hb := hdeps b hdep
    rcases List.get_of_mem hb with ⟨⟨j, hj⟩, hgj⟩
    refine ⟨j, by omega, by omega, ?_⟩
    rw [← hgj]
    simp only [List.get_eq_getElem]
    exact List.getElem_append_left hj

theorem transGen_of_chain {R : String → String → Prop} :
    ∀ (l : List String) (a b : String), List.Chain R a (l ++ [b]) →
      Relation.TransGen R a b
  | [], a, b, h => by
    rw [List.nil_append, List.chain_cons] at h
    exact Relation.TransGen.single h.1
  | x :: xs, a, b, h => by
    rw [List.cons_append, List.chain_cons] at h
    exact Relation.TransGen.head h.1 (transGen_of_chain xs x b h.2)

/-- The circular-dependency payload really contains a dependency cycle:
if the revisited name is on the visiting path and the path is a dependency
chain, the dependency relation has a cycle through the revisited name. -/
theorem cycle_of_payload {S : List (SolverInfo α)} {vis : List String}
    {nm : String} (hmem : nm ∈ vis)
    (hchain : List.Chain' (DepR S) (vis ++ [nm])) :
    Relation.TransGen (DepR S) nm nm := by
  rcases List.append_of_mem hmem with ⟨l₁, l₂, rfl⟩
  have h₂ : List.Chain' (DepR S) (nm :: (l₂ ++ [nm])) := by
    have : l₁ ++ nm :: l₂ ++ [nm] = l₁ ++ (nm :: (l₂ ++ [nm])) := by simp
    rw [this] at hchain
    exact hchain.right_of_append
  exact transGen_of_chain l₂ nm nm h₂

theorem chain'_concat_le {f : String → Nat} {a : String} {c : Nat} :
    ∀ {l : List String}, (l.map f).Chain' (· ≤ ·) → (∀ x ∈ l, f x ≤ c) →
      c ≤ f a → ((l ++ [a]).map f).Chain' (· ≤ ·) := by
  intro l
  induction l with
  | nil => intro _ _ _; simp
  | cons x xs ih =>
    intro h hb ha
    cases xs with
    | nil =>
      simp only [List.map_cons, List.nil_append, List.singleton_append,
        List.map_nil, List.map_cons, List.chain'_cons, List.cons_append]
      constructor
      · exact le_trans (hb x (by simp)) ha
      · simp
    | cons y ys =>
      rw [List.map_cons, List.map_cons, List.chain'_cons] at h
      have hih := ih h.2 (fun z hz => hb z (List.mem_cons_of_mem _ hz)) ha
      rw [List.cons_append, List.map_cons, List.cons_append, List.map_cons,
        List.chain'_cons]
      refine ⟨by simpa using h.1, ?_⟩
      simpa [List.cons_append] using hih

theorem indexOf_le_of_get_eq :
    ∀ (l : List String) (j : Nat) (hj : j < l.length) (b : String),
      l.get ⟨j, hj⟩ = b → l.indexOf b ≤ j
  | x :: xs, 0, _, b, hb => by
    simp [List.get_eq_getElem] at hb
    simp [hb, List.indexOf_cons_self]
  | x :: xs, j + 1, hj, b, hb => by
    by_cases hx : x = b
    · simp [hx, List.indexOf_cons_self]
    · have hrec := indexOf_le_of_get_eq xs j (by simpa using hj) b
        (by simpa [List.get_eq_getElem] using hb)
      rw [List.indexOf_cons_ne _ hx]
      omega

/-! ## Invariants of the topological traversal -/

/-- Invariants of the `(execution_order, processed)` accumulator of
`_add_solver_to_order`: the code appends every placed name to both, so
`processed` holds exactly the names of `execution_order`; in addition the
order has no duplicates, mentions only registered names, and places every
dependency before its dependent. -/
structure AccInv (S : List (SolverInfo α)) (order processed : List String) :
    Prop where
  pe : processed = order
  nd : order.Nodup
  sub : ∀ x ∈ order, x ∈ namesOf S
  dbef : DepsRespected S order

/-- Tier invariants while the traversal works on the priority group of
value `pv`: tiers placed so far are non-decreasing and bounded by `pv`, and
every solver of a strictly earlier tier has already been placed. -/
structure TierInv (S : List (SolverInfo α)) (pv : Nat) (l : List String) :
    Prop where
  mono : TiersMono S l
  bound : ∀ x ∈ l, tierOf S x ≤ pv
  compl : ∀ s ∈ S, s.priority.value < pv → s.name ∈ l

/-- Postcondition of a successful `_add_solver_to_order` call. -/
def OkPost (S : List (SolverInfo α)) (name : String)
    (order visiting o' p' : List String) : Prop :=
  p' = o' ∧ (∃ t, o' = order ++ t) ∧ name ∈ o' ∧ AccInv S o' o' ∧
  (∀ x ∈ o', x ∈ order ∨ x ∉ visiting) ∧
  (∀ pv, TierConsistent S → tierOf S name ≤ pv → TierInv S pv order →
    TierInv S pv o')

/-- Postcondition of a failing `_add_solver_to_order` call (given that all
dependencies resolve): the only exception raised is the circular-dependency
`ValueError`, whose payload is the in-progress path plus the revisited
name, and that path is a genuine dependency chain. -/
def ErrPost (S : List (SolverInfo α)) (e : OpErr) : Prop :=
  ∃ vis nm, e = .circular vis nm ∧ nm ∈ vis ∧
    List.Chain' (DepR S) (vis ++ [nm])

/-- Specification of the dependency loop of `_add_solver_to_order`, given a
specification `hf` of the recursive descent. -/
theorem addDeps_spec {S : List (SolverInfo α)}
    {f : String → List String → List String → List String →
      Except OpErr (List String × List String)}
    {visiting : List String} {parent : String}
    (hf : ∀ name order processed, name ∈ namesOf S →
      AccInv S order processed → (∀ x ∈ order, x ∉ visiting) →
      List.Chain' (DepR S) (visiting ++ [name]) →
      (∀ o' p', f name order processed visiting = .ok (o', p') →
        OkPost S name order visiting o' p') ∧
      (∀ e, f name order processed visiting = .error e → ErrPost S e))
    (hchain : List.Chain' (DepR S) visiting)
    (hlast : visiting.getLast? = some parent) :
    ∀ deps order processed,
      (∀ d ∈ deps, d ∈ namesOf S) →
      (∀ d ∈ deps, DepR S parent d) →
      AccInv S order processed →
      (∀ x ∈ order, x ∉ visiting) →
      (∀ o' p', addDepsToOrder f deps order processed visiting = .ok (o', p') →
        p' = o' ∧ (∃ t, o' = order ++ t) ∧ (∀ d ∈ deps, d ∈ o') ∧
        AccInv S o' o' ∧ (∀ x ∈ o', x ∈ order ∨ x ∉ visiting) ∧
        (∀ pv, TierConsistent S → (∀ d ∈ deps, tierOf S d ≤ pv) →
          TierInv S pv order → TierInv S pv o')) ∧
      (∀ e, addDepsToOrder f deps order processed visiting = .error e →
        ErrPost S e) := by
  intro deps
  induction deps with
  | nil =>
    intro order processed _ _ hAcc _
    constructor
    · intro o' p' hok
      simp only [addDepsToOrder, Except.ok.injEq, Prod.mk.injEq] at hok
      obtain ⟨h1, h2⟩ := hok
      subst h1; subst h2
      refine ⟨hAcc.pe, ⟨[], by simp⟩, by simp, ?_, fun x hx => Or.inl hx,
        fun pv _ _ hTI => hTI⟩
      exact ⟨rfl, hAcc.nd, hAcc.sub, hAcc.dbef⟩
    · intro e herr
      simp only [addDepsToOrder] at herr
      exact Except.noConfusion herr
  | cons d rest ih =>
    intro order processed hsub hdeps hAcc hvis
    have hchain' : List.Chain' (DepR S) (visiting ++ [d]) := by
      rw [List.chain'_append]
      refine ⟨hchain, by simp, fun x hx y hy => ?_⟩
      rw [hlast] at hx
      simp only [Option.mem_def, Option.some.injEq] at hx
      simp only [List.head?_cons, Option.mem_def, Option.some.injEq] at hy
      subst hx; subst hy
      exact hdeps d (by simp)
    have hd := hf d order processed (hsub d (by simp)) hAcc hvis hchain'
    have hcont : ∀ o1 p1, f d order processed visiting = .ok (o1, p1) →
        (∀ o' p', addDepsToOrder f rest o1 p1 visiting = .ok (o', p') →
          p' = o' ∧ (∃ t, o' = order ++ t) ∧ (∀ d' ∈ d :: rest, d' ∈ o') ∧
          AccInv S o' o' ∧ (∀ x ∈ o', x ∈ order ∨ x ∉ visiting) ∧
          (∀ pv, TierConsistent S → (∀ d' ∈ d :: rest, tierOf S d' ≤ pv) →
            TierInv S pv order → TierInv S pv o')) ∧
        (∀ e, addDepsToOrder f rest o1 p1 visiting = .error e →
          ErrPost S e) := by
      intro o1 p1 hfd
      obtain ⟨hp1, ⟨t1, ht1⟩, hdin, hAcc1, hnew1, htier1⟩ := hd.1 o1 p1 hfd
      have hAcc1' : AccInv S o1 p1 := ⟨hp1, hAcc1.nd, hAcc1.sub, hAcc1.dbef⟩
      have hvis1 : ∀ x ∈ o1, x ∉ visiting := fun x hx =>
        (hnew1 x hx).elim (fun h => hvis x h) id
      have hrec := ih o1 p1 (fun d' hd' => hsub d' (by simp [hd']))
        (fun d' hd' => hdeps d' (by simp [hd'])) hAcc1' hvis1
      constructor
      · intro o' p' hok
        obtain ⟨hp', ⟨t2, ht2⟩, hrestin, hAcc', hnew', htier'⟩ :=
          hrec.1 o' p' hok
        refine ⟨hp', ⟨t1 ++ t2, by simp [ht2, ht1]⟩, ?_, hAcc', ?_, ?_⟩
        · intro d' hd'
          rcases List.mem_cons.mp hd' with rfl | hd'
          · rw [ht2]; exact List.mem_append_left _ hdin
          · exact hrestin d' hd'
        · intro x hx
          rcases hnew' x hx with hx1 | hx2
          · exact hnew1 x hx1
          · exact Or.inr hx2
        · intro pv hTOK hle hTI
          exact htier' pv hTOK (fun d' hd' => hle d' (by simp [hd']))
            (htier1 pv hTOK (hle d (by simp)) hTI)
      · intro e herr
        exact hrec.2 e herr
    constructor
    · intro o' p' hok
      rw [addDepsToOrder] at hok
      split at hok
      · exact Except.noConfusion hok
      · rename_i o1 p1 heq
        exact ((hcont o1 p1 heq).1 o' p' hok)
    · intro e herr
      rw [addDepsToOrder] at herr
      split at herr
      · rename_i e' heq
        have he : e' = e := by injection herr
        subst he
        exact hd.2 e' heq
      · rename_i o1 p1 heq
        exact ((hcont o1 p1 heq).2 e herr)

/-- Master specification of `_add_solver_to_order` (by induction on the
fuel, which the precondition keeps above the termination measure). -/
theorem addSolver_spec {S : List (SolverInfo α)} (hND : (namesOf S).Nodup)
    (hRES : Resolvable S) :
    ∀ (fuel : Nat) (name : String) (order processed visiting : List String),
      name ∈ namesOf S → AccInv S order processed →
      (∀ x ∈ order, x ∉ visiting) →
      List.Chain' (DepR S) (visiting ++ [name]) →
      remFuel S visiting < fuel →
      (∀ o' p',
        addSolverToOrder S fuel name order processed visiting = .ok (o', p') →
        OkPost S name order visiting o' p') ∧
      (∀ e,
        addSolverToOrder S fuel name order processed visiting = .error e →
        ErrPost S e) := by
  intro fuel
  induction fuel with
  | zero =>
    intro name order processed visiting _ _ _ _ hrem
    exact absurd hrem (Nat.not_lt_zero _)
  | succ fuel ih =>
    intro name order processed visiting hmem hAcc hvis hchain hrem
    by_cases hproc : name ∈ processed
    · constructor
      · intro o' p' hok
        rw [addSolverToOrder, if_pos hproc] at hok
        simp only [Except.ok.injEq, Prod.mk.injEq] at hok
        obtain ⟨h1, h2⟩ := hok
        subst h1; subst h2
        refine ⟨hAcc.pe, ⟨[], by simp⟩, hAcc.pe ▸ hproc, ?_,
          fun x hx => Or.inl hx, fun pv _ _ hTI => hTI⟩
        exact ⟨rfl, hAcc.nd, hAcc.sub, hAcc.dbef⟩
      · intro e herr
        rw [addSolverToOrder, if_pos hproc] at herr
        cases herr
    · by_cases hvisit : name ∈ visiting
      · constructor
        · intro o' p' hok
          rw [addSolverToOrder, if_neg hproc, if_pos hvisit] at hok
          cases hok
        · intro e herr
          rw [addSolverToOrder, if_neg hproc, if_pos hvisit] at herr
          cases herr
          exact ⟨visiting, name, rfl, hvisit, hchain⟩
      · obtain ⟨info, hinfo⟩ := lookup_eq_some_of_mem hmem
        have hnameS : name ∉ order := hAcc.pe ▸ hproc
        have hrem' : remFuel S (visiting ++ [name]) < fuel := by
          have := remFuel_append_lt (S := S) hmem hvisit
          omega
        have hf : ∀ name' order' processed', name' ∈ namesOf S →
            AccInv S order' processed' →
            (∀ x ∈ order', x ∉ visiting ++ [name]) →
            List.Chain' (DepR S) ((visiting ++ [name]) ++ [name']) →
            (∀ o' p', addSolverToOrder S fuel name' order' processed'
                (visiting ++ [name]) = .ok (o', p') →
              OkPost S name' order' (visiting ++ [name]) o' p') ∧
            (∀ e, addSolverToOrder S fuel name' order' processed'
                (visiting ++ [name]) = .error e → ErrPost S e) :=
          fun name' order' processed' hm hA hv hc =>
            ih name' order' processed' (visiting ++ [name]) hm hA hv hc hrem'
        have hsubdeps : ∀ d ∈ info.dependsOn, d ∈ namesOf S :=
          fun d hd => hRES info (lookup_spec hinfo).1 d hd
        have hdepsname : ∀ d ∈ info.dependsOn, DepR S name d :=
          fun d hd => depR_of_lookup hinfo hd
        have hvis' : ∀ x ∈ order, x ∉ visiting ++ [name] := by
          intro x hx
          simp only [List.mem_append, List.mem_singleton]
          rintro (h | rfl)
          · exact hvis x hx h
          · exact hnameS hx
        have hloopspec := addDeps_spec hf hchain (List.getLast?_concat _)
          info.dependsOn order processed hsubdeps hdepsname hAcc hvis'
        constructor
        · intro o' p' hok
          rw [addSolverToOrder, if_neg hproc, if_neg hvisit] at hok
          split at hok
          · rename_i heq
            rw [hinfo] at heq
            exact Option.noConfusion heq
          · rename_i info' heq
            rw [hinfo] at heq
            have hinfoeq : info = info' := Option.some.inj heq
            subst hinfoeq
            split at hok
            · exact Except.noConfusion hok
            · rename_i o1 p1 hloop
              simp only [Except.ok.injEq, Prod.mk.injEq] at hok
              obtain ⟨h1, h2⟩ := hok
              subst h1; subst h2
              obtain ⟨hp1, ⟨t1, ht1⟩, hdin, hAcc1, hnew1, htier1⟩ :=
                hloopspec.1 o1 p1 hloop
              have hnameo1 : name ∉ o1 := by
                intro h
                rcases hnew1 name h with h' | h'
                · exact hnameS h'
                · exact h' (by simp)
              refine ⟨by rw [hp1], ⟨t1 ++ [name], by simp [ht1]⟩, by simp, ?_,
                ?_, ?_⟩
              · refine ⟨rfl, nodup_concat hAcc1.nd hnameo1, ?_, ?_⟩
                · intro x hx
                  rcases List.mem_append.mp hx with hx | hx
                  · exact hAcc1.sub x hx
                  · rw [List.mem_singleton.mp hx]; exact hmem
                · refine depsRespected_concat hAcc1.dbef (fun b hb => ?_)
                  exact hdin b (dependsOn_of_depR hND hinfo hb)
              · intro x hx
                rcases List.mem_append.mp hx with hx | hx
                · rcases hnew1 x hx with h | h
                  · exact Or.inl h
                  · exact Or.inr (fun hc => h (List.mem_append_left _ hc))
                · rw [List.mem_singleton.mp hx]
                  exact Or.inr hvisit
              · intro pv hTOK hle hTI
                have htiername : tierOf S name = info.priority.value := by
                  simp [tierOf, hinfo]
                have hdepsle : ∀ d ∈ info.dependsOn, tierOf S d ≤ pv := by
                  intro d hd
                  obtain ⟨t, hts⟩ := lookup_eq_some_of_mem (hsubdeps d hd)
                  have htv : tierOf S d = t.priority.value := by
                    simp [tierOf, hts]
                  have hle' := hTOK info (lookup_spec hinfo).1 d hd t
                    (lookup_spec hts).1 (lookup_spec hts).2
                  omega
                have hTI1 := htier1 pv hTOK hdepsle hTI
                have hpv : tierOf S name = pv := by
                  rcases Nat.lt_or_ge (tierOf S name) pv with hlt | hge
                  · exfalso
                    apply hnameo1
                    have := hTI1.compl info (lookup_spec hinfo).1 (by omega)
                    rwa [(lookup_spec hinfo).2] at this
                  · omega
                refine ⟨chain'_concat_le hTI1.mono hTI1.bound (by omega), ?_, ?_⟩
                · intro x hx
                  rcases List.mem_append.mp hx with hx | hx
                  · exact hTI1.bound x hx
                  · rw [List.mem_singleton.mp hx]; omega
                · intro s hs hsv
                  exact List.mem_append_left _ (hTI1.compl s hs hsv)
        · intro e herr
          rw [addSolverToOrder, if_neg hproc, if_neg hvisit] at herr
          split at herr
          · rename_i heq
            rw [hinfo] at heq
            exact Option.noConfusion heq
          · rename_i info' heq
            rw [hinfo] at heq
            have hinfoeq : info = info' := Option.some.inj heq
            subst hinfoeq
            split at herr
            · rename_i e' hloop
              have he : e' = e := by injection herr
              subst he
              exact hloopspec.2 e' hloop
            · rename_i o1 p1 hloop
              exact Except.noConfusion herr

end OpenPH

namespace OpenPH

variable {α : Type}

/-- Specification of the inner loop of `_calculate_execution_order` over the
solvers of one priority group (fresh empty `visiting` per top-level call). -/
theorem processGroup_spec {S : List (SolverInfo α)} (hND : (namesOf S).Nodup)
    (hRES : Resolvable S) :
    ∀ (gnames : List String) (order processed : List String),
      (∀ n ∈ gnames, n ∈ namesOf S) →
      AccInv S order processed →
      (∀ o' p', processGroup S gnames order processed = .ok (o', p') →
        p' = o' ∧ (∃ t, o' = order ++ t) ∧ (∀ n ∈ gnames, n ∈ o') ∧
        AccInv S o' o' ∧
        (∀ pv, TierConsistent S → (∀ n ∈ gnames, tierOf S n ≤ pv) →
          TierInv S pv order → TierInv S pv o')) ∧
      (∀ e, processGroup S gnames order processed = .error e →
        ErrPost S e) := by
  intro gnames
  induction gnames with
  | nil =>
    intro order processed _ hAcc
    constructor
    · intro o' p' hok
      simp only [processGroup, Except.ok.injEq, Prod.mk.injEq] at hok
      obtain ⟨h1, h2⟩ := hok
      subst h1; subst h2
      exact ⟨hAcc.pe, ⟨[], by simp⟩, by simp,
        ⟨rfl, hAcc.nd, hAcc.sub, hAcc.dbef⟩, fun pv _ _ hTI => hTI⟩
    · intro e herr
      simp only [processGroup] at herr
      exact Except.noConfusion herr
  | cons n rest ih =>
    intro order processed hsub hAcc
    have hspec := addSolver_spec hND hRES (addFuel S) n order processed []
      (hsub n (by simp)) hAcc (by simp) (by simp) (remFuel_lt_addFuel S)
    have hcont : ∀ o1 p1,
        addSolverToOrder S (addFuel S) n order processed [] = .ok (o1, p1) →
        (∀ o' p', processGroup S rest o1 p1 = .ok (o', p') →
          p' = o' ∧ (∃ t, o' = order ++ t) ∧ (∀ n' ∈ n :: rest, n' ∈ o') ∧
          AccInv S o' o' ∧
          (∀ pv, TierConsistent S → (∀ n' ∈ n :: rest, tierOf S n' ≤ pv) →
            TierInv S pv order → TierInv S pv o')) ∧
        (∀ e, processGroup S rest o1 p1 = .error e → ErrPost S e) := by
      intro o1 p1 hstep
      obtain ⟨hp1, ⟨t1, ht1⟩, hnin, hAcc1, _, htier1⟩ := hspec.1 o1 p1 hstep
      have hAcc1' : AccInv S o1 p1 := ⟨hp1, hAcc1.nd, hAcc1.sub, hAcc1.dbef⟩
      have hrec := ih o1 p1 (fun n' hn' => hsub n' (by simp [hn'])) hAcc1'
      constructor
      · intro o' p' hok
        obtain ⟨hp', ⟨t2, ht2⟩, hrestin, hAcc', htier'⟩ := hrec.1 o' p' hok
        refine ⟨hp', ⟨t1 ++ t2, by simp [ht2, ht1]⟩, ?_, hAcc', ?_⟩
        · intro n' hn'
          rcases List.mem_cons.mp hn' with rfl | hn'
          · rw [ht2]; exact List.mem_append_left _ hnin
          · exact hrestin n' hn'
        · intro pv hTOK hle hTI
          exact htier' pv hTOK (fun n' hn' => hle n' (by simp [hn']))
            (htier1 pv hTOK (hle n (by simp)) hTI)
      · exact hrec.2
    constructor
    · intro o' p' hok
      rw [processGroup] at hok
      split at hok
      · exact Except.noConfusion hok
      · rename_i o1 p1 hstep
        exact (hcont o1 p1 hstep).1 o' p' hok
    · intro e herr
      rw [processGroup] at herr
      split at herr
      · rename_i e' hstep
        have he : e' = e := by injection herr
        subst he
        exact hspec.2 e' hstep
      · rename_i o1 p1 hstep
        exact (hcont o1 p1 hstep).2 e herr

/-- Names of the solvers whose priority is `p`, in registration order. -/
theorem mem_group_iff {S : List (SolverInfo α)} {p : SolverPriority}
    {n : String} :
    n ∈ namesOf (S.filter (fun s => s.priority == p)) ↔
      ∃ s ∈ S, s.name = n ∧ s.priority = p := by
  simp only [namesOf, List.mem_map, List.mem_filter, beq_iff_eq]
  constructor
  · rintro ⟨s, ⟨hs, hp⟩, rfl⟩
    exact ⟨s, hs, rfl, hp⟩
  · rintro ⟨s, hs, rfl, hp⟩
    exact ⟨s, ⟨hs, hp⟩, rfl⟩

/-- Specification of the outer loop of `_calculate_execution_order` over the
priority groups in ascending `value` order. -/
theorem processGroups_spec {S : List (SolverInfo α)} (hND : (namesOf S).Nodup)
    (hRES : Resolvable S) :
    ∀ (ps : List SolverPriority) (order processed : List String),
      List.Pairwise (fun a b : SolverPriority => a.value ≤ b.value) ps →
      AccInv S order processed →
      (∀ s ∈ S, s.priority ∉ ps → s.name ∈ order) →
      (∀ o' p', processGroups S ps order processed = .ok (o', p') →
        p' = o' ∧ (∃ t, o' = order ++ t) ∧ (∀ s ∈ S, s.name ∈ o') ∧
        AccInv S o' o' ∧
        (TierConsistent S →
          TiersMono S order →
          (∀ x ∈ order, ∀ q ∈ ps, tierOf S x ≤ q.value) →
          TiersMono S o')) ∧
      (∀ e, processGroups S ps order processed = .error e → ErrPost S e) := by
  intro ps
  induction ps with
  | nil =>
    intro order processed _ hAcc hdone
    constructor
    · intro o' p' hok
      simp only [processGroups, Except.ok.injEq, Prod.mk.injEq] at hok
      obtain ⟨h1, h2⟩ := hok
      subst h1; subst h2
      exact ⟨hAcc.pe, ⟨[], by simp⟩,
        fun s hs => hdone s hs (by simp),
        ⟨rfl, hAcc.nd, hAcc.sub, hAcc.dbef⟩,
        fun _ hmono _ => hmono⟩
    · intro e herr
      simp only [processGroups] at herr
      exact Except.noConfusion herr
  | cons p rest ih =>
    intro order processed hPW hAcc hdone
    have hPWrest := (List.pairwise_cons.mp hPW).2
    have hheadle := (List.pairwise_cons.mp hPW).1
    have hgsub : ∀ n ∈ namesOf (S.filter (fun s => s.priority == p)),
        n ∈ namesOf S := by
      intro n hn
      rcases mem_group_iff.mp hn with ⟨s, hs, rfl, _⟩
      exact mem_namesOf.mpr ⟨s, hs, rfl⟩
    have hgroup := processGroup_spec hND hRES
      (namesOf (S.filter (fun s => s.priority == p))) order processed
      hgsub hAcc
    have hcont : ∀ o1 p1,
        processGroup S (namesOf (S.filter (fun s => s.priority == p)))
          order processed = .ok (o1, p1) →
        (∀ o' p', processGroups S rest o1 p1 = .ok (o', p') →
          p' = o' ∧ (∃ t, o' = order ++ t) ∧ (∀ s ∈ S, s.name ∈ o') ∧
          AccInv S o' o' ∧
          (TierConsistent S →
            TiersMono S order →
            (∀ x ∈ order, ∀ q ∈ p :: rest, tierOf S x ≤ q.value) →
            TiersMono S o')) ∧
        (∀ e, processGroups S rest o1 p1 = .error e → ErrPost S e) := by
      intro o1 p1 hstep
      obtain ⟨hp1, ⟨t1, ht1⟩, hgin, hAcc1, htier1⟩ := hgroup.1 o1 p1 hstep
      have hAcc1' : AccInv S o1 p1 := ⟨hp1, hAcc1.nd, hAcc1.sub, hAcc1.dbef⟩
      have hdone1 : ∀ s ∈ S, s.priority ∉ rest → s.name ∈ o1 := by
        intro s hs hnr
        by_cases hp : s.priority = p
        · exact hgin s.name (mem_group_iff.mpr ⟨s, hs, rfl, hp⟩)
        · have : s.priority ∉ p :: rest := by
            simp only [List.mem_cons, not_or]
            exact ⟨hp, hnr⟩
          rw [ht1]
          exact List.mem_append_left _ (hdone s hs this)
      have hrec := ih o1 p1 hPWrest hAcc1' hdone1
      constructor
      · intro o' p' hok
        obtain ⟨hp', ⟨t2, ht2⟩, hall, hAcc', htmono⟩ := hrec.1 o' p' hok
        refine ⟨hp', ⟨t1 ++ t2, by simp [ht2, ht1]⟩, hall, hAcc', ?_⟩
        intro hTOK hmono hbnd
        have hgle : ∀ n ∈ namesOf (S.filter (fun s => s.priority == p)),
            tierOf S n ≤ p.value := by
          intro n hn
          rcases mem_group_iff.mp hn with ⟨s, hs, rfl, hp⟩
          rw [tierOf_eq hND hs, hp]
        have hcompl : ∀ s ∈ S, s.priority.value < p.value → s.name ∈ order := by
          intro s hs hlt
          refine hdone s hs ?_
          simp only [List.mem_cons, not_or]
          constructor
          · intro h; rw [h] at hlt; omega
          · intro h
            have := hheadle s.priority h
            omega
        have hTI : TierInv S p.value order :=
          ⟨hmono, fun x hx => hbnd x hx p (by simp), hcompl⟩
        have hTI1 := htier1 p.value hTOK hgle hTI
        refine htmono hTOK hTI1.mono ?_
        intro x hx q hq
        have h1 := hTI1.bound x hx
        have h2 := hheadle q hq
        omega
      · exact hrec.2
    constructor
    · intro o' p' hok
      rw [processGroups] at hok
      split at hok
      · exact Except.noConfusion hok
      · rename_i o1 p1 hstep
        exact (hcont o1 p1 hstep).1 o' p' hok
    · intro e herr
      rw [processGroups] at herr
      split at herr
      · rename_i e' hstep
        have he : e' = e := by injection herr
        subst he
        exact hgroup.2 e' hstep
      · rename_i o1 p1 hstep
        exact (hcont o1 p1 hstep).2 e herr

end OpenPH

namespace OpenPH

variable {α : Type}

theorem mem_sortedMembers (p : SolverPriority) :
    p ∈ SolverPriority.sortedMembers := by
  cases p <;> simp [SolverPriority.sortedMembers]

/-- Validation `_validate_all_dependencies` succeeds exactly on resolvable sets. -/
theorem validateAll_ok_iff {S : List (SolverInfo α)} :
    validateAllDependencies S = .ok () ↔ Resolvable S := by
  constructor
  · intro h s hs d hd
    by_contra hdn
    unfold validateAllDependencies at h
    split at h
    · exact Except.noConfusion h
    · rename_i hnone
      rw [List.findSome?_eq_none_iff] at hnone
      have hmap := hnone s hs
      rw [Option.map_eq_none'] at hmap
      rw [List.find?_eq_none] at hmap
      refine hmap d hd ?_
      simp only [Bool.not_eq_true', Bool.not_eq_true]
      rw [List.any_eq_false]
      intro t ht
      simp only [beq_iff_eq]
      intro heq
      exact hdn (mem_namesOf.mpr ⟨t, ht, heq⟩)
  · intro hres
    unfold validateAllDependencies
    split
    · rename_i a d heq
      exfalso
      obtain ⟨s, hs, hmap⟩ := List.exists_of_findSome?_eq_some heq
      rw [Option.map_eq_some'] at hmap
      obtain ⟨d', hfind, hpair⟩ := hmap
      have hmiss := List.find?_some hfind
      have hdmem := List.mem_of_find?_eq_some hfind
      have hin := hres s hs d' hdmem
      rcases mem_namesOf.mp hin with ⟨t, ht, htn⟩
      simp only [Bool.not_eq_true'] at hmiss
      rw [List.any_eq_false] at hmiss
      exact hmiss t ht (by simp [htn])
    · rfl

/-- A pair reported by `_validate_all_dependencies` is a genuine offending
(plugin, missing dependency) pair. -/
theorem validateAll_err_spec {S : List (SolverInfo α)} {e : OpErr}
    (h : validateAllDependencies S = .error e) :
    ∃ a d, e = .unresolved a d ∧
      ∃ s ∈ S, s.name = a ∧ d ∈ s.dependsOn ∧ d ∉ namesOf S := by
  unfold validateAllDependencies at h
  split at h
  · rename_i a d heq
    have he : OpErr.unresolved a d = e := by injection h
    subst he
    obtain ⟨s, hs, hmap⟩ := List.exists_of_findSome?_eq_some heq
    rw [Option.map_eq_some'] at hmap
    obtain ⟨d', hfind, hpair⟩ := hmap
    have hmiss := List.find?_some hfind
    have hdmem := List.mem_of_find?_eq_some hfind
    have hpair' : s.name = a ∧ d' = d := by
      constructor
      · injection hpair
      · injection hpair
    obtain ⟨ha, hd⟩ := hpair'
    subst ha; subst hd
    refine ⟨s.name, d', rfl, s, hs, rfl, hdmem, ?_⟩
    intro hin
    rcases mem_namesOf.mp hin with ⟨t, ht, htn⟩
    simp only [Bool.not_eq_true'] at hmiss
    rw [List.any_eq_false] at hmiss
    exact hmiss t ht (by simp [htn])
  · exact Except.noConfusion h

/-- Combined correctness of `_calculate_execution_order`'s core for
resolvable, duplicate-free registries: a successful run yields a
permutation that respects dependencies (and tiers when the configuration is
tier-consistent); a failing run fails precisely with the circular-dependency
error, whose payload is an actual dependency chain ending in a revisit. -/
theorem calcOrder_cases {S : List (SolverInfo α)} (hND : (namesOf S).Nodup)
    (hRES : Resolvable S) :
    (∀ o, calcOrder S = .ok o → o.Perm (namesOf S) ∧ o.Nodup ∧
      DepsRespected S o ∧ (TierConsistent S → TiersMono S o)) ∧
    (∀ e, calcOrder S = .error e → ∃ vis nm, e = .circular vis nm ∧
      nm ∈ vis ∧ List.Chain' (DepR S) (vis ++ [nm])) := by
  have hAcc0 : AccInv S [] [] :=
    ⟨rfl, List.nodup_nil, by simp, depsRespected_nil⟩
  have hdone0 : ∀ s ∈ S, s.priority ∉ SolverPriority.sortedMembers →
      s.name ∈ ([] : List String) := by
    intro s _ habs
    exact absurd (mem_sortedMembers s.priority) habs
  have hPW : List.Pairwise (fun a b : SolverPriority => a.value ≤ b.value)
      SolverPriority.sortedMembers := by decide
  have hgs := processGroups_spec hND hRES SolverPriority.sortedMembers [] []
    hPW hAcc0 hdone0
  constructor
  · intro o hok
    rw [calcOrder] at hok
    split at hok
    · rename_i e heq
      rw [validateAll_ok_iff.mpr hRES] at heq
      exact Except.noConfusion heq
    · split at hok
      · exact Except.noConfusion hok
      · rename_i o1 p1 heq
        have ho : o1 = o := by injection hok
        subst ho
        obtain ⟨_, _, hall, hAcc', htier⟩ := hgs.1 o1 p1 heq
        have hnames : ∀ n ∈ namesOf S, n ∈ o1 := by
          intro n hn
          rcases mem_namesOf.mp hn with ⟨s, hs, rfl⟩
          exact hall s hs
        refine ⟨?_, hAcc'.nd, hAcc'.dbef, ?_⟩
        · refine List.perm_of_nodup_nodup_toFinset_eq hAcc'.nd hND ?_
          refine Finset.ext fun x => ?_
          simp only [List.mem_toFinset]
          exact ⟨fun h => hAcc'.sub x h, fun h => hnames x h⟩
        · intro hTOK
          exact htier hTOK (by simp [TiersMono]) (by simp)
  · intro e herr
    rw [calcOrder] at herr
    split at herr
    · rename_i e' heq
      rw [validateAll_ok_iff.mpr hRES] at heq
      exact Except.noConfusion heq
    · split at herr
      · rename_i e' heq
        have he : e' = e := by injection herr
        subst he
        exact hgs.2 e' heq
      · exact Except.noConfusion herr

/-- A successful plan computation certifies acyclicity: the output respects
dependencies, so any dependency cycle would yield an index strictly below
itself. -/
theorem acyclic_of_calcOrder_ok {S : List (SolverInfo α)}
    (hND : (namesOf S).Nodup) (hRES : Resolvable S) {o : List String}
    (hok : calcOrder S = .ok o) : Acyclic S := by
  obtain ⟨hperm, hnd, hdbef, _⟩ := (calcOrder_cases hND hRES).1 o hok
  have hmem : ∀ n ∈ namesOf S, n ∈ o := fun n hn => hperm.mem_iff.mpr hn
  have hstep : ∀ a b, DepR S a b → o.indexOf b < o.indexOf a := by
    intro a b hab
    rcases depR_iff.mp hab with ⟨s, hs, hname, hbdep⟩
    have ha : a ∈ o := by
      rw [← hname]
      exact hmem _ (mem_namesOf.mpr ⟨s, hs, rfl⟩)
    have hi : o.indexOf a < o.length := List.indexOf_lt_length.mpr ha
    have hget : o.get ⟨o.indexOf a, hi⟩ = a := by
      simp only [List.get_eq_getElem]
      exact List.getElem_indexOf hi
    obtain ⟨j, hj, hji, hgj⟩ := hdbef (o.indexOf a) hi b (by rw [hget]; exact hab)
    have := indexOf_le_of_get_eq o j hj b hgj
    omega
  intro a hcyc
  have hlt : ∀ b, Relation.TransGen (DepR S) a b →
      o.indexOf b < o.indexOf a := by
    intro b h
    induction h with
    | single h => exact hstep _ _ h
    | tail h1 h2 ih =>
      have := hstep _ _ h2
      omega
  have := hlt a hcyc
  omega

/-- For acyclic (and resolvable, duplicate-free) registries the plan
computation succeeds. -/
theorem calcOrder_ok_of_acyclic {S : List (SolverInfo α)}
    (hND : (namesOf S).Nodup) (hRES : Resolvable S) (hACY : Acyclic S) :
    ∃ o, calcOrder S = .ok o := by
  cases h : calcOrder S with
  | ok o => exact ⟨o, rfl⟩
  | error e =>
    obtain ⟨vis, nm, rfl, hm, hc⟩ := (calcOrder_cases hND hRES).2 e h
    exact absurd (cycle_of_payload hm hc) (hACY nm)

/-- For cyclic (but resolvable, duplicate-free) registries the plan
computation fails with the circular-dependency error, whose payload chain
contains a genuine cycle through the revisited name. -/
theorem calcOrder_err_of_cyclic {S : List (SolverInfo α)}
    (hND : (namesOf S).Nodup) (hRES : Resolvable S) (hcyc : ¬ Acyclic S) :
    ∃ vis nm, calcOrder S = .error (.circular vis nm) ∧ nm ∈ vis ∧
      List.Chain' (DepR S) (vis ++ [nm]) ∧
      Relation.TransGen (DepR S) nm nm := by
  cases h : calcOrder S with
  | ok o => exact absurd (acyclic_of_calcOrder_ok hND hRES h) hcyc
  | error e =>
    obtain ⟨vis, nm, rfl, hm, hc⟩ := (calcOrder_cases hND hRES).2 e h
    exact ⟨vis, nm, rfl, hm, hc, cycle_of_payload hm hc⟩

end OpenPH

namespace OpenPH

variable {α : Type}

/-! ## Manager-level evaluation lemmas -/

/-- Running `execute_solver` with `validate_dependencies=False` on a successful
solve: the instance is cached, the name is appended to the history, and the
solve result is returned. -/
theorem executeSolver_false_ok {m : SolverManager α} {name : String}
    {model v : α} {info : SolverInfo α}
    (hdisc : m.registry.discovered = true)
    (hlk : lookup m.registry.solvers name = some info)
    (hsolve : info.solve model = .ok v) :
    executeSolver m name model false =
      ({ registry := m.registry,
         instances :=
           if name ∈ m.instances then m.instances else m.instances ++ [name],
         executionHistory := m.executionHistory ++ [name] }, .ok v) := by
  unfold executeSolver
  rw [hdisc, hlk]
  simp [hsolve]

/-- Running `execute_solver` with `validate_dependencies=False` on a failing solve:
the exception is rewrapped as `SolverExecutionError`, the history is
untouched, but the instance cache keeps the new instance. -/
theorem executeSolver_false_err {m : SolverManager α} {name : String}
    {model : α} {msg : String} {info : SolverInfo α}
    (hdisc : m.registry.discovered = true)
    (hlk : lookup m.registry.solvers name = some info)
    (hsolve : info.solve model = .error msg) :
    executeSolver m name model false =
      ({ registry := m.registry,
         instances :=
           if name ∈ m.instances then m.instances else m.instances ++ [name],
         executionHistory := m.executionHistory }, .error (.execError name msg)) := by
  unfold executeSolver
  rw [hdisc, hlk]
  simp [hsolve]

/-- The specification-side description of a batch run with
`stop_on_error=False`: thread the model through each name once, in order;
collect the names that succeeded and, for each failure, the pair of the
failed plugin's name and its message.  Returns
`(final model, successes, failures)`. -/
def runSpec (S : List (SolverInfo α)) : List String → α →
    α × List String × List (String × String)
  | [], v => (v, [], [])
  | n :: ns, v =>
    match lookup S n with
    | some info =>
      match info.solve v with
      | .ok v' =>
        let r := runSpec S ns v'
        (r.1, n :: r.2.1, r.2.2)
      | .error msg =>
        let r := runSpec S ns v
        (r.1, r.2.1, (n, msg) :: r.2.2)
    | none => runSpec S ns v

/-- Threading the model through a list of names, requiring every solve to
succeed. -/
def threadOk (S : List (SolverInfo α)) : List String → α → Option α
  | [], v => some v
  | n :: ns, v =>
    match lookup S n with
    | some info =>
      match info.solve v with
      | .ok v' => threadOk S ns v'
      | .error _ => none
    | none => none

/-- The batch loop with `stop_on_error=False` refines `runSpec`: every name
is attempted exactly once in order; the history gains exactly the
successes, in order; if any failure occurred the aggregated error lists
every (name, message) pair in order, otherwise the threaded model is
returned. -/
theorem runList_noStop :
    ∀ (names : List String) (m : SolverManager α) (v : α)
      (errs : List (String × String)),
      m.registry.discovered = true →
      (∀ n ∈ names, (lookup m.registry.solvers n).isSome) →
      (runSolverList m names v false errs).1.executionHistory =
          m.executionHistory ++ (runSpec m.registry.solvers names v).2.1 ∧
      (runSolverList m names v false errs).1.registry = m.registry ∧
      (runSolverList m names v false errs).2 =
        (if (errs ++ (runSpec m.registry.solvers names v).2.2).isEmpty then
          .ok (runSpec m.registry.solvers names v).1
        else .error (.multiExecError
          (errs ++ (runSpec m.registry.solvers names v).2.2))) := by
  intro names
  induction names with
  | nil =>
    intro m v errs _ _
    by_cases he : errs.isEmpty
    · simp [runSolverList, runSpec, he]
    · have : errs.isEmpty = false := by simpa using he
      simp [runSolverList, runSpec, this]
  | cons n ns ih =>
    intro m v errs hdisc hall
    obtain ⟨info, hlk⟩ := Option.isSome_iff_exists.mp (hall n (by simp))
    cases hsolve : info.solve v with
    | ok v' =>
      have hexec := executeSolver_false_ok hdisc hlk hsolve
      rw [runSolverList, hexec]
      have hih := ih
        ⟨m.registry,
          if n ∈ m.instances then m.instances else m.instances ++ [n],
          m.executionHistory ++ [n]⟩ v' errs hdisc
        (fun n' hn' => hall n' (by simp [hn']))
      simp only [runSpec, hlk, hsolve]
      refine ⟨?_, hih.2.1, hih.2.2⟩
      rw [hih.1]
      simp
    | error msg =>
      have hexec := executeSolver_false_err hdisc hlk hsolve
      rw [runSolverList, hexec]
      have hih := ih
        ⟨m.registry,
          if n ∈ m.instances then m.instances else m.instances ++ [n],
          m.executionHistory⟩ v (errs ++ [(n, msg)]) hdisc
        (fun n' hn' => hall n' (by simp [hn']))
      simp only [runSpec, hlk, hsolve]
      exact ⟨hih.1, hih.2.1, hih.2.2.trans (by simp)⟩

/-- The batch loop with `stop_on_error=True`: when every name before `nk`
succeeds along the threaded model and `nk`'s solve fails, the failure
propagates immediately as `nk`'s `SolverExecutionError`, the names after
`nk` are never consulted (the conclusion does not depend on `names2`), and
the history gains exactly the names before `nk`. -/
theorem runList_stop :
    ∀ (names1 : List String) (m : SolverManager α) (v : α)
      (errs : List (String × String)) {vk : α} {nk : String}
      (names2 : List String) {info : SolverInfo α} {msg : String},
      m.registry.discovered = true →
      threadOk m.registry.solvers names1 v = some vk →
      lookup m.registry.solvers nk = some info →
      info.solve vk = .error msg →
      (runSolverList m (names1 ++ nk :: names2) v true errs).2 =
          .error (.execError nk msg) ∧
      (runSolverList m (names1 ++ nk :: names2) v true errs).1.executionHistory =
          m.executionHistory ++ names1 := by
  intro names1
  induction names1 with
  | nil =>
    intro m v errs vk nk names2 info msg hdisc hthread hlk hsolve
    have hv : v = vk := by
      simpa [threadOk] using hthread
    subst hv
    have hexec := executeSolver_false_err hdisc hlk hsolve
    rw [List.nil_append, runSolverList, hexec]
    simp
  | cons n ns ih =>
    intro m v errs vk nk names2 info msg hdisc hthread hlk hsolve
    rw [threadOk] at hthread
    cases hlk1 : lookup m.registry.solvers n with
    | none =>
      simp only [hlk1] at hthread
      exact Option.noConfusion hthread
    | some info1 =>
      simp only [hlk1] at hthread
      cases hsolve1 : info1.solve v with
      | error msg1 =>
        simp only [hsolve1] at hthread
        exact Option.noConfusion hthread
      | ok v1 =>
        simp only [hsolve1] at hthread
        have hexec := executeSolver_false_ok hdisc hlk1 hsolve1
        rw [List.cons_append, runSolverList, hexec]
        have hih := ih
          ⟨m.registry,
            if n ∈ m.instances then m.instances else m.instances ++ [n],
            m.executionHistory ++ [n]⟩ v1 errs names2
          hdisc hthread hlk hsolve
        refine ⟨hih.1, ?_⟩
        rw [hih.2]
        simp

/-- Method `execute_all` resolves the (cached) plan and enters the shared batch
loop with an empty error collection. -/
theorem executeAll_eq {m : SolverManager α} {model : α} {stop : Bool}
    {plan : List String} (hdisc : m.registry.discovered = true)
    (hcache : m.registry.executionOrder = some plan) :
    executeAll m model stop = runSolverList m plan model stop [] := by
  unfold executeAll getExecutionOrder
  rw [hdisc, hcache]
  rfl

end OpenPH

namespace OpenPH

variable {α : Type}

/-- The upfront existence check of `execute_subset` passes when every
requested name is registered. -/
theorem subsetCheck_none {m : SolverManager α} {names : List String}
    (hall : ∀ n ∈ names, n ∈ namesOf m.registry.solvers) :
    names.find?
      (fun n => !(m.registry.solvers.any (fun s => s.name == n))) = none := by
  rw [List.find?_eq_none]
  intro n hn
  have hany : (m.registry.solvers.any fun s => s.name == n) = true := by
    rw [List.any_eq_true]
    rcases mem_namesOf.mp (hall n hn) with ⟨s, hs, hsn⟩
    exact ⟨s, hs, by simp [hsn]⟩
  simp [hany]

/-- Running `execute_subset` with `respect_order=True` (registered names, cached
plan): the executed sequence is the full plan filtered by membership in the
requested names. -/
theorem executeSubset_respectOrder {m : SolverManager α} {names : List String}
    {model : α} {stop : Bool} {full : List String}
    (hall : ∀ n ∈ names, n ∈ namesOf m.registry.solvers)
    (hdisc : m.registry.discovered = true)
    (hcache : m.registry.executionOrder = some full) :
    executeSubset m names model true stop =
      runSolverList m (full.filter (fun s => names.contains s))
        model stop [] := by
  unfold executeSubset getExecutionOrder
  rw [subsetCheck_none hall, hdisc, hcache]
  rfl

/-- Running `execute_subset` with `respect_order=False` (registered names): the
caller-supplied list is executed verbatim. -/
theorem executeSubset_verbatim {m : SolverManager α} {names : List String}
    {model : α} {stop : Bool}
    (hall : ∀ n ∈ names, n ∈ namesOf m.registry.solvers) :
    executeSubset m names model false stop =
      runSolverList m names model stop [] := by
  unfold executeSubset
  rw [subsetCheck_none hall]
  rfl

/-- Discovery `discover_solvers` ends by calculating the execution order eagerly:
a successful discovery leaves the cache set to the freshly computed order,
and a plan-time failure of the freshly registered set surfaces as the
discovery call's own error. -/
theorem discoverSolvers_spec (r : SolverRegistry α)
    (candidates : List (SolverInfo α)) :
    (∀ r', discoverSolvers r candidates = .ok r' →
      r'.solvers = candidates.foldl dictInsert [] ∧ r'.discovered = true ∧
      ∃ o, r'.executionOrder = some o ∧ calcOrder r'.solvers = .ok o) ∧
    (∀ e, discoverSolvers r candidates = .error e →
      calcOrder (candidates.foldl dictInsert []) = .error e) := by
  unfold discoverSolvers calculateExecutionOrder
  simp only [Bool.not_true, Bool.false_eq_true, if_false]
  constructor
  · intro r' hok
    split at hok
    · exact Except.noConfusion hok
    · rename_i o heq
      have hr' : r' = ⟨candidates.foldl dictInsert [], some o, true⟩ :=
        (Except.ok.inj hok).symm
      subst hr'
      exact ⟨rfl, rfl, o, rfl, heq⟩
  · intro e herr
    split at herr
    · rename_i e' heq
      have he : e' = e := by injection herr
      subst he
      exact heq
    · exact Except.noConfusion herr

/-- Calling `get_execution_order` on a discovered registry with an empty cache
recomputes via `_calculate_execution_order` and caches the result. -/
theorem getExecutionOrder_fresh {S : List (SolverInfo α)} {o : List String}
    (h : calcOrder S = .ok o) :
    getExecutionOrder
        ({ solvers := S, executionOrder := none, discovered := true } :
          SolverRegistry α) =
      .ok (o, { solvers := S, executionOrder := some o, discovered := true }) := by
  unfold getExecutionOrder calculateExecutionOrder
  simp [h]

end OpenPH

namespace OpenPH

variable {α : Type}

instance (S : List (SolverInfo α)) : Decidable (Resolvable S) :=
  inferInstanceAs (Decidable (∀ s ∈ S, ∀ d ∈ s.dependsOn, d ∈ namesOf S))

instance (S : List (SolverInfo α)) : Decidable (TierConsistent S) :=
  inferInstanceAs (Decidable (∀ s ∈ S, ∀ d ∈ s.dependsOn, ∀ t ∈ S,
    t.name = d → t.priority.value ≤ s.priority.value))

instance (S : List (SolverInfo α)) (l : List String) :
    Decidable (TiersMono S l) :=
  inferInstanceAs (Decidable ((l.map (tierOf S)).Chain' (· ≤ ·)))

/-- A name that no registered solver depends on lies on no dependency
cycle (nothing can step into it). -/
theorem not_transGen_of_no_parent {S : List (SolverInfo α)} {x : String}
    (h : ∀ s ∈ S, x ∉ s.dependsOn) :
    ∀ y, ¬ Relation.TransGen (DepR S) y x := by
  intro y hty
  cases hty with
  | single hr =>
    rcases depR_iff.mp hr with ⟨s, hs, _, hx⟩
    exact h s hs hx
  | tail h1 hr =>
    rcases depR_iff.mp hr with ⟨s, hs, _, hx⟩
    exact h s hs hx

/-! ## Concrete fixtures -/

/-- A context-preserving, protocol-compliant solver record. -/
def mkSolver (n : String) (p : SolverPriority) (deps : List String) :
    SolverInfo Nat :=
  { name := n, priority := p, dependsOn := deps,
    solve := fun v => .ok v, validateDeps := fun _ => [] }

/-- The spec's concrete scenario: foundation → demand → systems. -/
def trioSet : List (SolverInfo Nat) :=
  [mkSolver "foundation" .FOUNDATION [],
   mkSolver "demand" .DEMAND ["foundation"],
   mkSolver "systems" .SYSTEMS ["demand"]]

/-- A FOUNDATION solver depending on a SYSTEMS solver (strictly later
tier). -/
def crossTierSet : List (SolverInfo Nat) :=
  [mkSolver "early" .FOUNDATION ["late"], mkSolver "late" .SYSTEMS []]

/-- A FOUNDATION solver depending on a DEMAND solver (strictly later
tier). -/
def crossTierSet2 : List (SolverInfo Nat) :=
  [mkSolver "a" .FOUNDATION ["b"], mkSolver "b" .DEMAND []]

/-- An acyclic entry `x` leading into the 2-cycle `a ↔ b`. -/
def prefixedCycleSet : List (SolverInfo Nat) :=
  [mkSolver "x" .FOUNDATION ["a"],
   mkSolver "a" .FOUNDATION ["b"],
   mkSolver "b" .FOUNDATION ["a"]]

/-- The plain 2-cycle `a ↔ b`. -/
def twoCycleSet : List (SolverInfo Nat) :=
  [mkSolver "a" .FOUNDATION ["b"], mkSolver "b" .FOUNDATION ["a"]]

/-- Two solvers, each with its own missing dependency. -/
def twoMissingSet : List (SolverInfo Nat) :=
  [mkSolver "s1" .FOUNDATION ["m1"], mkSolver "s2" .FOUNDATION ["m2"]]

/-! ## Claim C1 -/

/-- C1 (amended): for every registry state (no duplicate names) whose
descriptor set is acyclic, fully resolvable, AND tier-consistent (every
dependency lies in the same or an earlier priority tier than its
dependent), `get_execution_order()` returns a permutation of all
registered names in which every dependency strictly precedes its dependent
and the priority tiers are non-decreasing across the order.  (Without the
tier-consistency hypothesis the permutation and precedence still hold but
a later-tier dependency is silently pulled earlier, breaking tier
monotonicity — see the counterexample.) -/
theorem C1_order_permutation_deps_tiers :
    ∀ (S : List (SolverInfo α)),
      (namesOf S).Nodup → Resolvable S → TierConsistent S → Acyclic S →
      ∃ o r', getExecutionOrder
          ({ solvers := S, executionOrder := none, discovered := true } :
            SolverRegistry α) = .ok (o, r') ∧
        o.Perm (namesOf S) ∧ DepsRespected S o ∧ TiersMono S o := by
  intro S hND hRES hTOK hACY
  obtain ⟨o, hok⟩ := calcOrder_ok_of_acyclic hND hRES hACY
  obtain ⟨hperm, _, hdbef, htier⟩ := (calcOrder_cases hND hRES).1 o hok
  exact ⟨o, _, getExecutionOrder_fresh hok, hperm, hdbef, htier hTOK⟩

/-- Witness for C1 at the spec's foundation/demand/systems scenario. -/
theorem C1_order_permutation_deps_tiers_witness :
    (namesOf trioSet).Nodup ∧ Resolvable trioSet ∧ TierConsistent trioSet ∧
    ∃ o r', getExecutionOrder
        ({ solvers := trioSet, executionOrder := none, discovered := true } :
          SolverRegistry Nat) = .ok (o, r') ∧
      o.Perm (namesOf trioSet) ∧ DepsRespected trioSet o ∧
      TiersMono trioSet o :=
  ⟨by decide, by decide, by decide,
    C1_order_permutation_deps_tiers trioSet (by decide) (by decide) (by decide)
      (@acyclic_of_calcOrder_ok Nat trioSet (by decide) (by decide)
        ["foundation", "demand", "systems"] rfl)⟩

/-- C1 as literally stated is false: `crossTierSet` is acyclic and fully
resolvable, planning succeeds with `["late", "early"]`, yet the tier
sequence decreases (`late` is SYSTEMS, `early` is FOUNDATION) and no
intra-tier dependency forces it — the forcing dependency is cross-tier. -/
theorem C1_counterexample :
    calcOrder crossTierSet = .ok ["late", "early"] ∧
    (namesOf crossTierSet).Nodup ∧ Resolvable crossTierSet ∧
    Acyclic crossTierSet ∧
    ¬ TiersMono crossTierSet ["late", "early"] ∧
    DepR crossTierSet "early" "late" ∧
    tierOf crossTierSet "early" = 1 ∧ tierOf crossTierSet "late" = 3 :=
  ⟨rfl, by decide, by decide,
    @acyclic_of_calcOrder_ok Nat crossTierSet (by decide) (by decide)
      ["late", "early"] rfl,
    by
      intro h
      unfold TiersMono at h
      rw [show (["late", "early"].map (tierOf crossTierSet)) = [3, 1] from rfl,
        List.chain'_cons] at h
      exact absurd h.1 (by omega),
    by decide, by decide, by decide⟩

/-! ## Claim C4 -/

/-- C4 (amended): for every duplicate-free, fully resolvable descriptor set
containing a dependency cycle, computing the execution order fails with the
circular-dependency error; its payload is the in-progress path plus the
revisited name — a genuine dependency chain containing an actual cycle
through the revisited name — but it is the whole path (whose printed order
Python leaves unspecified, `list` of a set), not only the chain from the
first revisited node back to itself: it may include upstream names outside
the cycle. -/
theorem C4_cycle_detected_with_path :
    ∀ (S : List (SolverInfo α)) (a : String),
      (namesOf S).Nodup → Resolvable S →
      Relation.TransGen (DepR S) a a →
      ∃ vis nm, calcOrder S = .error (.circular vis nm) ∧ nm ∈ vis ∧
        List.Chain' (DepR S) (vis ++ [nm]) ∧
        Relation.TransGen (DepR S) nm nm := by
  intro S a hND hRES hcyc
  exact calcOrder_err_of_cyclic hND hRES (fun hacy => hacy a hcyc)

/-- Witness for C4 at the 2-cycle `a ↔ b`. -/
theorem C4_cycle_detected_with_path_witness :
    (namesOf twoCycleSet).Nodup ∧ Resolvable twoCycleSet ∧
    ∃ vis nm, calcOrder twoCycleSet = .error (.circular vis nm) ∧
      nm ∈ vis ∧ List.Chain' (DepR twoCycleSet) (vis ++ [nm]) ∧
      Relation.TransGen (DepR twoCycleSet) nm nm :=
  ⟨by decide, by decide,
    C4_cycle_detected_with_path twoCycleSet "a" (by decide) (by decide)
      (Relation.TransGen.tail
        (Relation.TransGen.single
          (show DepR twoCycleSet "a" "b" by decide))
        (show DepR twoCycleSet "b" "a" by decide))⟩

/-- C4 as literally stated is false: with `x → a → b → a`, the reported
cycle path is the whole visiting path `["x", "a", "b"]` plus the revisited
`"a"`, which names `"x"` — a node on no cycle — so the report is not "the
chain of names from the first revisited node back to itself". -/
theorem C4_counterexample :
    calcOrder prefixedCycleSet = .error (.circular ["x", "a", "b"] "a") ∧
    ¬ Relation.TransGen (DepR prefixedCycleSet) "x" "x" :=
  ⟨rfl, not_transGen_of_no_parent (by decide) "x"⟩

/-! ## Claim C5 -/

/-- C5 (amended): whenever some registered descriptor's `depends_on` names
an unregistered plugin, planning fails with an unresolved-dependency error
naming a single genuine offending (plugin, missing-dependency) pair — the
first one encountered in registration order — not every such pair. -/
theorem C5_unresolved_reports_first_pair :
    ∀ (S : List (SolverInfo α)), ¬ Resolvable S →
      ∃ a d, calcOrder S = .error (.unresolved a d) ∧
        ∃ s ∈ S, s.name = a ∧ d ∈ s.dependsOn ∧ d ∉ namesOf S := by
  intro S hnres
  cases hv : validateAllDependencies S with
  | ok u =>
    cases u
    exact absurd (validateAll_ok_iff.mp hv) hnres
  | error e =>
    obtain ⟨a, d, rfl, hpair⟩ := validateAll_err_spec hv
    refine ⟨a, d, ?_, hpair⟩
    rw [calcOrder, hv]

/-- Witness for C5 at `twoMissingSet`. -/
theorem C5_unresolved_reports_first_pair_witness :
    ¬ Resolvable twoMissingSet ∧
    ∃ a d, calcOrder twoMissingSet = .error (.unresolved a d) ∧
      ∃ s ∈ twoMissingSet, s.name = a ∧ d ∈ s.dependsOn ∧
        d ∉ namesOf twoMissingSet :=
  ⟨by decide, C5_unresolved_reports_first_pair twoMissingSet (by decide)⟩

/-- C5 as literally stated is false: `twoMissingSet` has two offending
pairs — `("s1", "m1")` and `("s2", "m2")` — yet the error names only the
first one found. -/
theorem C5_counterexample :
    calcOrder twoMissingSet = .error (.unresolved "s1" "m1") ∧
    mkSolver "s2" .FOUNDATION ["m2"] ∈ twoMissingSet ∧
    "m2" ∈ (mkSolver "s2" .FOUNDATION ["m2"]).dependsOn ∧
    "m2" ∉ namesOf twoMissingSet :=
  ⟨rfl, by simp [twoMissingSet], by decide, by decide⟩

/-! ## Claim C6 -/

/-- C6 (amended): a dependency on a plugin in a strictly later priority
tier is NOT rejected: there is no upfront tier-consistency check, so for
every duplicate-free, resolvable, acyclic descriptor set — including ones
with later-tier dependencies — planning succeeds, and the later-tier
dependency is silently pulled earlier into the order (every dependency
strictly precedes its dependent). -/
theorem C6_no_tier_rejection :
    ∀ (S : List (SolverInfo α)),
      (namesOf S).Nodup → Resolvable S → Acyclic S →
      ∃ o, calcOrder S = .ok o ∧ o.Perm (namesOf S) ∧ DepsRespected S o := by
  intro S hND hRES hACY
  obtain ⟨o, hok⟩ := calcOrder_ok_of_acyclic hND hRES hACY
  obtain ⟨hperm, _, hdbef, _⟩ := (calcOrder_cases hND hRES).1 o hok
  exact ⟨o, hok, hperm, hdbef⟩

/-- Witness for C6 at `crossTierSet2`, which has a later-tier dependency
and still plans successfully. -/
theorem C6_no_tier_rejection_witness :
    (namesOf crossTierSet2).Nodup ∧ Resolvable crossTierSet2 ∧
    ∃ o, calcOrder crossTierSet2 = .ok o ∧ o.Perm (namesOf crossTierSet2) ∧
      DepsRespected crossTierSet2 o :=
  ⟨by decide, by decide,
    C6_no_tier_rejection crossTierSet2 (by decide) (by decide)
      (@acyclic_of_calcOrder_ok Nat crossTierSet2 (by decide) (by decide)
        ["b", "a"] rfl)⟩

/-- C6 as literally stated is false: `crossTierSet2` has a FOUNDATION
solver depending on a DEMAND (later-tier) solver, yet planning does not
fail — it succeeds and silently pulls the later-tier dependency `b` in
front of `a`. -/
theorem C6_counterexample :
    calcOrder crossTierSet2 = .ok ["b", "a"] ∧
    DepR crossTierSet2 "a" "b" ∧
    tierOf crossTierSet2 "a" = 1 ∧ tierOf crossTierSet2 "b" = 2 :=
  ⟨rfl, by decide, by decide, by decide⟩

/-! ## Claim C9 -/

/-- C9 (amended): discovery DOES compute the execution order itself —
eagerly, as its final step.  A successful `discover_solvers` leaves the
cache set (not unset) to the freshly calculated order, and plan-time
errors (cycle, unresolved dependency) surface during the discover call
itself, not lazily at the next `get_execution_order`. -/
theorem C9_discovery_computes_order :
    ∀ (r : SolverRegistry α) (candidates : List (SolverInfo α)),
      (∀ r', discoverSolvers r candidates = .ok r' →
        r'.discovered = true ∧ ∃ o, r'.executionOrder = some o ∧
          calcOrder r'.solvers = .ok o) ∧
      (∀ e, discoverSolvers r candidates = .error e →
        calcOrder (candidates.foldl dictInsert []) = .error e) := by
  intro r candidates
  have h := discoverSolvers_spec r candidates
  exact ⟨fun r' hok => ⟨(h.1 r' hok).2.1, (h.1 r' hok).2.2⟩, h.2⟩

/-- Witness for C9: a one-candidate discovery leaves the cache set. -/
theorem C9_discovery_computes_order_witness :
    (⟨[mkSolver "w9" .FOUNDATION []], some ["w9"], true⟩ :
        SolverRegistry Nat).discovered = true ∧
    ∃ o, (⟨[mkSolver "w9" .FOUNDATION []], some ["w9"], true⟩ :
        SolverRegistry Nat).executionOrder = some o ∧
      calcOrder (⟨[mkSolver "w9" .FOUNDATION []], some ["w9"], true⟩ :
        SolverRegistry Nat).solvers = .ok o :=
  (C9_discovery_computes_order (⟨[], none, false⟩ : SolverRegistry Nat)
      [mkSolver "w9" .FOUNDATION []]).1
    ⟨[mkSolver "w9" .FOUNDATION []], some ["w9"], true⟩ rfl

/-- C9 as literally stated is false: after a successful discover the
cached order is `some ["w9b"]`, not unset; and discovering a
self-dependent candidate raises the circular-dependency error during the
discover call itself. -/
theorem C9_counterexample :
    (discoverSolvers (⟨[], none, false⟩ : SolverRegistry Nat)
        [mkSolver "w9b" .FOUNDATION []]).map (fun r' => r'.executionOrder) =
      .ok (some ["w9b"]) ∧
    discoverSolvers (⟨[], none, false⟩ : SolverRegistry Nat)
        [mkSolver "c" .FOUNDATION ["c"]] = .error (.circular ["c"] "c") :=
  ⟨rfl, rfl⟩

end OpenPH

namespace OpenPH

variable {α : Type}

/-! ## Manager fixtures -/

/-- Manager over one protocol-compliant, dependency-free solver whose
`validate_dependencies` correctly returns an empty error list. -/
def soloMgr : SolverManager Nat :=
  ⟨⟨[mkSolver "foundation" .FOUNDATION []], some ["foundation"], true⟩, [], []⟩

/-- A solver whose `validate_dependencies` reports a genuine deficiency
(its dependency `ghost` is not registered). -/
def needySolver : SolverInfo Nat :=
  { name := "needy", priority := .FOUNDATION, dependsOn := ["ghost"],
    solve := fun v => .ok v,
    validateDeps := fun _ => ["Missing required dependency: ghost"] }

/-- Manager over `needySolver` alone. -/
def needyMgr : SolverManager Nat := ⟨⟨[needySolver], none, true⟩, [], []⟩

/-- A solver whose `solve` ignores the context and returns a fresh object
(the protocol's "typically returns self" pattern). -/
def chainerSolver : SolverInfo Nat :=
  { name := "chainer", priority := .FOUNDATION, dependsOn := [],
    solve := fun _ => .ok 1, validateDeps := fun _ => [] }

/-- Manager over `chainerSolver` alone. -/
def chainerMgr : SolverManager Nat := ⟨⟨[chainerSolver], none, true⟩, [], []⟩

/-- Increments the context. -/
def stepSolver : SolverInfo Nat :=
  { name := "step", priority := .FOUNDATION, dependsOn := [],
    solve := fun v => .ok (v + 1), validateDeps := fun _ => [] }

/-- Always fails. -/
def boomSolver : SolverInfo Nat :=
  { name := "boom", priority := .DEMAND, dependsOn := ["step"],
    solve := fun _ => .error "boom", validateDeps := fun _ => [] }

/-- Returns its context unchanged. -/
def tailSolver : SolverInfo Nat :=
  { name := "after", priority := .SYSTEMS, dependsOn := [],
    solve := fun v => .ok v, validateDeps := fun _ => [] }

/-- Manager whose plan is `step → boom → after`, with `boom` failing. -/
def failMidMgr : SolverManager Nat :=
  ⟨⟨[stepSolver, boomSolver, tailSolver], some ["step", "boom", "after"],
     true⟩, [], []⟩

/-- A solver returning a fresh value `99`. -/
def oddSolver : SolverInfo Nat :=
  { name := "odd", priority := .FOUNDATION, dependsOn := [],
    solve := fun _ => .ok 99, validateDeps := fun _ => [] }

/-- Manager over `oddSolver` alone, with the plan cached. -/
def oddMgr : SolverManager Nat := ⟨⟨[oddSolver], some ["odd"], true⟩, [], []⟩

/-- Manager over two independent solvers `p` and `q` with cached plan
`["p", "q"]`. -/
def pairMgr : SolverManager Nat :=
  ⟨⟨[mkSolver "p" .FOUNDATION [], mkSolver "q" .DEMAND []],
     some ["p", "q"], true⟩, [], []⟩

/-! ## Claim C2 -/

/-- C2 (code bug): `execute_solver` with `validate_dependencies=True` does
the OPPOSITE of the claim.  The protocol (`base.py`) documents
`validate_dependencies` as returning a list of error messages, empty when
all dependencies are satisfied; but the manager guards with
`if not solver.validate_dependencies(available_solvers):`, which raises
the `ValueError` exactly when the returned list is EMPTY (validation
passed) and invokes the plugin when the list is NON-EMPTY (deficiencies
reported).  Evaluated here at both kinds of input: a compliant solver with
no deficiencies is rejected with an empty `missing` set, and a solver
reporting a deficiency is executed. -/
theorem C2_validation_inverted :
    (executeSolver soloMgr "foundation" 0 true).2 =
      .error (.valueError "foundation" []) ∧
    (executeSolver needyMgr "needy" 0 true).2 = .ok 0 :=
  ⟨rfl, rfl⟩

/-! ## Claim C3 -/

/-- C3 (amended): a successful `execute_one(name, context)` returns the
value returned by the plugin's `solve` — which is the caller's context
only when the plugin chooses to return it — and appends the plugin's name
to the execution history. -/
theorem C3_returns_solve_result :
    ∀ (m : SolverManager α) (name : String) (model v : α) (b : Bool),
      (executeSolver m name model b).2 = .ok v →
      (∃ info, lookup m.registry.solvers name = some info ∧
        info.solve model = .ok v) ∧
      (executeSolver m name model b).1.executionHistory =
        m.executionHistory ++ [name] := by
  intro m name model v b h
  by_cases hdisc : m.registry.discovered = true
  · cases hlk : lookup m.registry.solvers name with
    | none =>
      exfalso
      unfold executeSolver at h
      simp [hdisc, hlk] at h
    | some info =>
      by_cases hval :
          (b && (info.validateDeps (namesOf m.registry.solvers)).isEmpty) = true
      · exfalso
        unfold executeSolver at h
        simp [hdisc, hlk, hval] at h
      · have hval' :
            (b && (info.validateDeps (namesOf m.registry.solvers)).isEmpty)
              = false := by
          simpa using hval
        cases hsolve : info.solve model with
        | error msg =>
          exfalso
          unfold executeSolver at h
          simp [hdisc, hlk, hval', hsolve] at h
        | ok v' =>
          have hv : v' = v := by
            unfold executeSolver at h
            simp [hdisc, hlk, hval', hsolve] at h
            exact h
          subst hv
          constructor
          · exact ⟨info, rfl, hsolve⟩
          · unfold executeSolver
            simp [hdisc, hlk, hval', hsolve]
  · exfalso
    have hd : m.registry.discovered = false := by simpa using hdisc
    unfold executeSolver at h
    simp [hd] at h

/-- Witness for C3 at `soloMgr`: the solver returns its context, so the
returned value is the context and the history gains the name. -/
theorem C3_returns_solve_result_witness :
    (∃ info, lookup soloMgr.registry.solvers "foundation" = some info ∧
      info.solve 5 = .ok 5) ∧
    (executeSolver soloMgr "foundation" 5 false).1.executionHistory =
      soloMgr.executionHistory ++ ["foundation"] :=
  C3_returns_solve_result soloMgr "foundation" 5 5 false rfl

/-- C3 as literally stated is false: `chainerSolver`'s `solve` returns a
fresh object (`1`), so the successful `execute_one` call returns `1`, not
the context `0` that was passed in. -/
theorem C3_counterexample :
    (executeSolver chainerMgr "chainer" 0 false).2 = .ok 1 ∧ (1 : Nat) ≠ 0 :=
  ⟨rfl, by decide⟩

/-! ## Claim C7 -/

/-- C7: `execute_all` with `stop_on_error=True`.  If every plugin before
`nk` in the plan succeeds on the threaded context and `nk`'s execution
fails, the failure propagates immediately as `nk`'s
`SolverExecutionError`, and the history afterwards contains exactly the
plugins before `nk`, in plan order.  The names after `nk` (`names2`) are
universally quantified and absent from the conclusion: no plugin after
the failure position is invoked or can affect the outcome. -/
theorem C7_stop_on_error_halts :
    ∀ (m : SolverManager α) (ctx : α) (names1 : List String) (nk : String)
      (names2 : List String) (vk : α) (info : SolverInfo α) (msg : String),
      m.registry.discovered = true →
      m.registry.executionOrder = some (names1 ++ nk :: names2) →
      threadOk m.registry.solvers names1 ctx = some vk →
      lookup m.registry.solvers nk = some info →
      info.solve vk = .error msg →
      (executeAll m ctx true).2 = .error (.execError nk msg) ∧
      (executeAll m ctx true).1.executionHistory =
        m.executionHistory ++ names1 := by
  intro m ctx names1 nk names2 vk info msg hdisc hcache hthread hlk hsolve
  rw [executeAll_eq hdisc hcache]
  exact runList_stop names1 m ctx [] names2 hdisc hthread hlk hsolve

/-- Witness for C7 at `failMidMgr`: `step` runs, `boom` fails, `after`
never runs; history is exactly `["step"]`. -/
theorem C7_stop_on_error_halts_witness :
    (executeAll failMidMgr 0 true).2 = .error (.execError "boom" "boom") ∧
    (executeAll failMidMgr 0 true).1.executionHistory =
      failMidMgr.executionHistory ++ ["step"] :=
  C7_stop_on_error_halts failMidMgr 0 ["step"] "boom" ["after"] 1 boomSolver
    "boom" rfl rfl rfl rfl rfl

/-! ## Claim C8 -/

/-- C8 (amended): `execute_all` with `stop_on_error=false` attempts every
plugin in the plan exactly once in plan order regardless of earlier
failures (the refinement to `runSpec`, which structurally visits each name
once); the history afterwards contains exactly the plugins that succeeded,
in order; if one or more failed, a single aggregated error enumerating
every failed plugin's name and message (in order) is raised after the last
plugin; if none failed, no error is raised and the model value as threaded
through the plugins' return values is returned — this is the caller's
(possibly mutated) context exactly when every plugin returns its input,
which the code does not enforce (see the counterexample). -/
theorem C8_aggregate_errors :
    ∀ (m : SolverManager α) (ctx : α) (plan : List String),
      m.registry.discovered = true →
      m.registry.executionOrder = some plan →
      (∀ n ∈ plan, (lookup m.registry.solvers n).isSome) →
      (executeAll m ctx false).1.executionHistory =
          m.executionHistory ++ (runSpec m.registry.solvers plan ctx).2.1 ∧
      ((runSpec m.registry.solvers plan ctx).2.2 = [] →
        (executeAll m ctx false).2 =
          .ok (runSpec m.registry.solvers plan ctx).1) ∧
      ((runSpec m.registry.solvers plan ctx).2.2 ≠ [] →
        (executeAll m ctx false).2 =
          .error (.multiExecError (runSpec m.registry.solvers plan ctx).2.2)) := by
  intro m ctx plan hdisc hcache hall
  rw [executeAll_eq hdisc hcache]
  have h := runList_noStop plan m ctx [] hdisc hall
  refine ⟨h.1, ?_, ?_⟩
  · intro hnone
    rw [h.2.2]
    simp [hnone]
  · intro hsome
    rw [h.2.2, List.nil_append]
    rw [if_neg]
    simp only [List.isEmpty_iff]
    exact hsome

/-- Witness for C8 at `failMidMgr`: all three plugins attempted, `boom`'s
failure collected and aggregated, history contains the two successes. -/
theorem C8_aggregate_errors_witness :
    (executeAll failMidMgr 0 false).1.executionHistory = ["step", "after"] ∧
    (executeAll failMidMgr 0 false).2 =
      .error (.multiExecError [("boom", "boom")]) := by
  have h := C8_aggregate_errors failMidMgr 0 ["step", "boom", "after"]
    rfl rfl (by decide)
  exact ⟨h.1, h.2.2 (by decide)⟩

/-- C8's final clause as literally stated is false: with `oddSolver`
(whose `solve` returns the fresh object `99`), no plugin fails and
`execute_all` returns `99` — the plugin's return value — not the context
`0` that was passed in. -/
theorem C8_counterexample :
    (executeAll oddMgr 0 false).2 = .ok 99 ∧ (99 : Nat) ≠ 0 :=
  ⟨rfl, by decide⟩

/-! ## Claim C10 -/

/-- C10: `execute_subset` with `respect_order=true` runs the full plan
filtered by membership in the requested names, so each distinct requested
plugin is executed at most once (the plan has no duplicates) and
duplicates or reorderings of the request have no effect; with
`respect_order=false` the caller-supplied list is run verbatim, once per
occurrence. -/
theorem C10_subset_duplicates :
    ∀ (m : SolverManager α) (names names' : List String) (ctx : α)
      (stop : Bool) (full : List String),
      m.registry.discovered = true →
      m.registry.executionOrder = some full →
      full.Nodup →
      (∀ n ∈ names, n ∈ namesOf m.registry.solvers) →
      (∀ n, n ∈ names ↔ n ∈ names') →
      executeSubset m names ctx true stop =
        runSolverList m (full.filter (fun s => names.contains s))
          ctx stop [] ∧
      executeSubset m names ctx true stop =
        executeSubset m names' ctx true stop ∧
      (∀ n, (full.filter (fun s => names.contains s)).count n ≤ 1) ∧
      executeSubset m names ctx false stop =
        runSolverList m names ctx stop [] := by
  intro m names names' ctx stop full hdisc hcache hnd hall hiff
  have hall' : ∀ n ∈ names', n ∈ namesOf m.registry.solvers :=
    fun n hn => hall n ((hiff n).mpr hn)
  have hfilter : full.filter (fun s => names.contains s) =
      full.filter (fun s => names'.contains s) := by
    apply List.filter_congr
    intro a _
    simp only [List.contains, List.elem_eq_mem]
    exact decide_eq_decide.mpr (hiff a)
  refine ⟨executeSubset_respectOrder hall hdisc hcache, ?_, ?_,
    executeSubset_verbatim hall⟩
  · rw [executeSubset_respectOrder hall hdisc hcache,
      executeSubset_respectOrder hall' hdisc hcache, hfilter]
  · intro n
    exact List.nodup_iff_count_le_one.mp (hnd.filter _) n

/-- Witness for C10 at `pairMgr` with the duplicated, reordered request
`["q", "p", "p"]` against `["p", "q"]`. -/
theorem C10_subset_duplicates_witness :
    executeSubset pairMgr ["q", "p", "p"] 0 true false =
      runSolverList pairMgr
        (["p", "q"].filter (fun s => ["q", "p", "p"].contains s))
        0 false [] ∧
    executeSubset pairMgr ["q", "p", "p"] 0 true false =
      executeSubset pairMgr ["p", "q"] 0 true false ∧
    (∀ n, ((["p", "q"] : List String).filter
        (fun s => ["q", "p", "p"].contains s)).count n ≤ 1) ∧
    executeSubset pairMgr ["q", "p", "p"] 0 false false =
      runSolverList pairMgr ["q", "p", "p"] 0 false [] :=
  C10_subset_duplicates pairMgr ["q", "p", "p"] ["p", "q"] 0 false
    ["p", "q"] rfl rfl (by decide) (by decide)
    (by intro n; simp [List.mem_cons]; tauto)

end OpenPH
